import Mathlib

/-!
Verification of the writer-reader markdown-book tool.

Shallow embedding of the core text algorithms of the repository:
slug generation, frontmatter splitting, the document edit operations with
their markdown-validation gate, and the SUMMARY.md table-of-contents
parser / serializer / merge engine.  Strings are modelled as `List Char`
(`Str`); every definition is translated from the Python source, one
function per definition, with the source location noted in its doc
comment.
-/

namespace WriterReader

/-- Strings are modelled as lists of characters. -/
abbrev Str := List Char

/-- Python whitespace (ASCII): the characters stripped by `str.strip()` and
matched by the regex class `\s`. -/
def isPyWs (c : Char) : Bool :=
  c = ' ' || c = '\t' || c = '\n' || c = '\r' || c = '\x0b' || c = '\x0c'

/-- Remove trailing characters satisfying `p` (right half of `str.strip`). -/
def trimRight (p : Char → Bool) : Str → Str
  | [] => []
  | c :: cs =>
    match trimRight p cs with
    | [] => if p c then [] else [c]
    | r => c :: r

/-- Remove leading and trailing characters satisfying `p` (`str.strip(chars)`). -/
def trimBoth (p : Char → Bool) (l : Str) : Str :=
  trimRight p (l.dropWhile p)

/-- Python `str.strip()` with no argument: strip whitespace from both ends. -/
def pyStrip (l : Str) : Str := trimBoth isPyWs l

/-- Python `str.lower()` per character (ASCII model). -/
def pyLower (c : Char) : Char := Char.toLower c

/-- Regex `\w` (ASCII model): alphanumeric or underscore. -/
def isWordChar (c : Char) : Bool := c.isAlphanum || c = '_'

/-- A character surviving the substitution `re.sub(r"[^\w\s-]", "", text)`. -/
def keepChar (c : Char) : Bool := isWordChar c || isPyWs c || c = '-'

/-- The character class `[\s_-]` collapsed by `re.sub(r"[\s_-]+", "-", text)`. -/
def isSepChar (c : Char) : Bool := isPyWs c || c = '_' || c = '-'

/-- State machine for `re.sub(r"[\s_-]+", "-", text)`: each maximal run of
separator characters is replaced by a single hyphen.  The boolean records
whether the previous character was part of a separator run. -/
def collapseSeps : Bool → Str → Str
  | _, [] => []
  | inSep, c :: cs =>
    if isSepChar c then
      if inSep then collapseSeps true cs else '-' :: collapseSeps true cs
    else c :: collapseSeps false cs

/-- `_slugify` from src/mdbook/services/writer_service.py lines 49-61:
lowercase and strip, delete characters outside `[\w\s-]`, collapse runs of
`[\s_-]` to a single hyphen, strip hyphens from both ends. -/
def writerSlugify (text : Str) : Str :=
  trimBoth (fun c => c = '-')
    (collapseSeps false ((pyStrip (text.map pyLower)).filter keepChar))

/-- `TocService._slugify` from src/mdbook/services/toc_service.py lines 192-204
(identical code to the writer-service copy). -/
def tocServiceSlugify (text : Str) : Str :=
  trimBoth (fun c => c = '-')
    (collapseSeps false ((pyStrip (text.map pyLower)).filter keepChar))

/-- `IndexService._slugify` from src/mdbook/services/index_service.py lines
145-157 (identical code). -/
def indexServiceSlugify (text : Str) : Str :=
  trimBoth (fun c => c = '-')
    (collapseSeps false ((pyStrip (text.map pyLower)).filter keepChar))

/-- `_slugify` from src/mdbook/domain/content.py lines 213-220 (identical
code). -/
def contentSlugify (text : Str) : Str :=
  trimBoth (fun c => c = '-')
    (collapseSeps false ((pyStrip (text.map pyLower)).filter keepChar))

/-- Slug strings never place two hyphens next to each other. -/
def noDD (a b : Char) : Prop := ¬(a = '-' ∧ b = '-')

/-- Boolean check that a string neither starts nor ends with a hyphen. -/
def noEdgeDash (l : Str) : Bool :=
  !(l.head? == some '-') && !(l.getLast? == some '-')

/-- Does `pre` occur as a prefix of `l`? (Python `str.startswith`.) -/
def startsWithL : Str → Str → Bool
  | [], _ => true
  | _ :: _, [] => false
  | p :: ps, c :: cs => (p = c) && startsWithL ps cs

/-- Index of the last newline inside a string (used to resolve the greedy
backtracking of `\s*` followed by a mandatory newline). -/
def lastNlIdx : Str → Option Nat
  | [] => none
  | c :: cs =>
    match lastNlIdx cs with
    | some k => some (k + 1)
    | none => if c = '\n' then some 0 else none

/-- Given the text immediately after a candidate `\n---`, the number of
characters matched by `\s*\n` (greedy `\s*`, backtracking so that the final
character is a newline), or `none` when the pattern cannot complete here. -/
def closeLen (s : Str) : Option Nat :=
  (lastNlIdx (s.takeWhile isPyWs)).map (· + 1)

/-- Model of `re.search(r"\n---\s*\n", rest)`: the end index of the leftmost
match of the closing-delimiter pattern, scanning position by position. -/
def findClose : Str → Option Nat
  | [] => none
  | c :: cs =>
    if c = '\n' ∧ cs.take 3 = ['-', '-', '-'] then
      match closeLen (cs.drop 3) with
      | some k => some (4 + k)
      | none => (findClose cs).map (· + 1)
    else (findClose cs).map (· + 1)

/-- Frontmatter extraction as coded identically in `update_chapter_content`,
`insert_at_section` and `replace_section` of
src/mdbook/services/writer_service.py (lines 670-674, 843-848, 959-964):
when the content starts with `---` and the closing-delimiter pattern matches
in `content[3:]`, the frontmatter is the prefix of the content up to the
match end; otherwise it is empty. -/
def extractFrontmatter (content : Str) : Str :=
  if startsWithL "---".toList content then
    match findClose (content.drop 3) with
    | some k => content.take (3 + k)
    | none => []
  else []

/-- `TocService._strip_frontmatter` from src/mdbook/services/toc_service.py
lines 206-221: same search; returns the remainder after the frontmatter with
leading whitespace removed (`lstrip`), the whole content when the pattern
does not match, and the content unchanged when it does not start with `---`. -/
def tocStripFrontmatter (content : Str) : Str :=
  if startsWithL "---".toList content then
    match findClose (content.drop 3) with
    | some k => (content.drop (3 + k)).dropWhile isPyWs
    | none => content
  else content

/-- Modelled from the spec: `ReaderService._strip_frontmatter` is not under
src/ (only its callers are).  Spec 4.2: `split(raw)` returns the frontmatter
block and the body as the untouched remainder; an opening delimiter without
a closing one is a defined fallback treating the entire document as body. -/
def readerStripFrontmatter (content : Str) : Str :=
  if startsWithL "---".toList content then
    match findClose (content.drop 3) with
    | some k => content.drop (3 + k)
    | none => content
  else content

/-- Boolean check that a string does not begin with whitespace. -/
def headNotWs (l : Str) : Bool :=
  match l.head? with
  | some c => !(isPyWs c)
  | none => true

/-- C2 counterexample document: the body begins with two spaces, which the
TOC-service splitter deletes, so re-joining does not reproduce the document. -/
def c2Doc : Str := "---\na\n---\n  b".toList

/-- C2 witness document (body starts with a non-whitespace character). -/
def c2WDoc : Str := "---\nt: v\n---\nbody\n".toList

/-- The backtick character. -/
def btick : Char := Char.ofNat 96

/-- Python `content.count("```")`: non-overlapping occurrences, scanning left
to right. -/
def countTriple : Str → Nat
  | c1 :: c2 :: c3 :: rest =>
    if c1 = btick ∧ c2 = btick ∧ c3 = btick then 1 + countTriple rest
    else countTriple (c2 :: c3 :: rest)
  | _ => 0

/-- The unclosed-code-block warning text of `_validate_markdown`. -/
def unclosedMsg : Str := "Unclosed code block (odd number of fence markers)".toList

/-- The mismatched-brackets warning text of `_validate_markdown` (the source
interpolates the two counts into the message). -/
def mismatchedMsg (o c : Nat) : Str :=
  ("Mismatched brackets: " ++ toString o ++ " openers vs " ++ toString c ++ " closers").toList

/-- `WriterService._validate_markdown` from writer_service.py lines 605-631:
an odd number of triple-backtick markers appends the unclosed-code-block
warning; unequal counts of opening and closing square brackets append the
mismatched-brackets warning. -/
def validateMarkdown (content : Str) : List Str :=
  (if countTriple content % 2 ≠ 0 then [unclosedMsg] else []) ++
    (if List.count '[' content ≠ List.count ']' content then
      [mismatchedMsg (List.count '[' content) (List.count ']' content)] else [])

/-- Outcome record of an edit operation (`EditResult` in writer_service.py,
lines 24-46; the diff and backup-path fields are I/O bookkeeping outside the
validated content path). -/
structure EditResult where
  success : Bool
  message : Str
deriving DecidableEq, Repr

/-- The shared tail of every edit operation in writer_service.py (the blocks
at lines 681-714, 760-793, 870-903 and 985-1018 are identical): validate the
modified content, return a failed result without writing on any warning,
return success without writing on dry-run, otherwise write the content.  The
suppressed/performed write is modelled by the `Option Str` component. -/
def gateResult (modified : Str) (dryRun : Bool) (okMsg : Str) : EditResult × Option Str :=
  let w := validateMarkdown modified
  if w ≠ [] then
    (⟨false, "Markdown validation warnings: ".toList ++ List.intercalate "; ".toList w⟩, none)
  else if dryRun then (⟨true, "Dry run - no changes written".toList⟩, none)
  else (⟨true, okMsg⟩, some modified)

/-- Trailing-newline enforcement used by every edit operation. -/
def ensureNl (l : Str) : Str :=
  if l.getLast? = some '\n' then l else l ++ ['\n']

/-- The modified content built by `update_chapter_content` (replace-whole),
writer_service.py lines 667-679: frontmatter preserved, new content with
leading newlines stripped, one trailing newline enforced. -/
def replaceWholeContent (original newContent : Str) : Str :=
  ensureNl (extractFrontmatter original ++ newContent.dropWhile (fun c => c = '\n'))

/-- `update_chapter_content` from writer_service.py lines 633-714 (content
path; chapter lookup is collaborator I/O). -/
def updateChapterContent (original newContent : Str) (dryRun : Bool) :
    EditResult × Option Str :=
  gateResult (replaceWholeContent original newContent) dryRun "Updated chapter".toList

/-- The separator chosen by `append_to_chapter` (writer_service.py lines
750-754): a single newline when `original_content.rstrip()` ends with a
newline, otherwise a blank line. -/
def appendSeparator (original : Str) : Str :=
  if (trimRight isPyWs original).getLast? = some '\n' then ['\n'] else ['\n', '\n']

/-- The modified content built by `append_to_chapter`, writer_service.py
lines 748-758. -/
def appendContent (original content : Str) : Str :=
  ensureNl (trimRight isPyWs original ++ appendSeparator original ++ pyStrip content)

/-- `append_to_chapter` from writer_service.py lines 716-793 (content path). -/
def appendToChapter (original content : Str) (dryRun : Bool) : EditResult × Option Str :=
  gateResult (appendContent original content) dryRun "Appended content".toList

/-- Split a string into lines at newline characters (Python
`content.split("\n")`). -/
def splitNl : Str → List Str
  | [] => [[]]
  | c :: cs =>
    if c = '\n' then [] :: splitNl cs
    else
      match splitNl cs with
      | [] => [[c]]
      | l :: ls => (c :: l) :: ls

/-- Join lines with newline characters (Python `"\n".join(lines)`). -/
def joinNl : List Str → Str
  | [] => []
  | [l] => l
  | l :: ls => l ++ '\n' :: joinNl ls

/-- A section of a chapter body (spec 3: index, optional heading, verbatim
content span). -/
structure MdSection where
  index : Nat
  heading : Option Str
  content : Str
deriving DecidableEq, Repr

/-- Group a line list into the preamble before the first `^## ` heading and
the (heading line, following lines) spans, scanning from the right. -/
def groupHeadingsAux (ls : List Str) : List Str × List (Str × List Str) :=
  ls.foldr
    (fun l p =>
      if startsWithL "## ".toList l then ([], (l, p.1) :: p.2)
      else (l :: p.1, p.2))
    ([], [])

/-- Modelled from the spec: `ReaderService.parse_sections` is not under src/
(only its callers in writer_service.py are).  Spec 4.3: a new section starts
at every line matching `^## `; the lines before the first such heading form
section 0 with no heading; an entirely empty body yields an empty list; a
section's content is the verbatim text of its span including its heading
line, and joining all contents with the parse-time separator (a newline)
reproduces the body. -/
def parseSections (body : Str) : List MdSection :=
  if body = [] then []
  else
    let pg := groupHeadingsAux (splitNl body)
    ⟨0, none, joinNl pg.1⟩ ::
      pg.2.enum.map (fun p =>
        ⟨p.1 + 1, some (p.2.1.drop 3), joinNl (p.2.1 :: p.2.2)⟩)

/-- A section identifier: ordinal index or heading text (spec 9 models the
duck-typed `int | str` identifier as this sum type). -/
inductive SectionId where
  | byIndex (n : Nat)
  | byHeading (q : Str)
deriving DecidableEq, Repr

/-- Substring test (needle occurs inside haystack). -/
def containsSub (needle : Str) : Str → Bool
  | [] => startsWithL needle []
  | c :: t => startsWithL needle (c :: t) || containsSub needle t

/-- Modelled from the spec: `ReaderService.get_section` is not under src/.
Spec 4.4: an integer identifier is an exact index match; a string identifier
is a case-insensitive substring match against the heading, first match in
index order. -/
def getSection (sections : List MdSection) (sid : SectionId) : Option MdSection :=
  match sid with
  | .byIndex n => sections.find? (fun s => s.index = n)
  | .byHeading q =>
    sections.find? (fun s =>
      match s.heading with
      | some h => containsSub (q.map pyLower) (h.map pyLower)
      | none => false)

/-- Insertion position of `insert_at_section`. -/
inductive InsertPos where
  | before
  | after
deriving DecidableEq, Repr

/-- The per-section pieces built by `insert_at_section` (writer_service.py
lines 850-857): the stripped new content is placed immediately before or
after the located section's content. -/
def insertPieces (sections : List MdSection) (target : MdSection) (content : Str)
    (pos : InsertPos) : List Str :=
  sections.flatMap (fun s =>
    (if s.index = target.index ∧ pos = .before then [pyStrip content] else []) ++
      [s.content] ++
      (if s.index = target.index ∧ pos = .after then [pyStrip content] else []))

/-- The modified content built by `insert_at_section` (writer_service.py
lines 843-868): frontmatter, then the pieces joined with blank lines, one
trailing newline enforced. -/
def insertModified (original : Str) (target : MdSection) (content : Str)
    (pos : InsertPos) : Str :=
  ensureNl (extractFrontmatter original ++
    List.intercalate "\n\n".toList
      (insertPieces (parseSections (readerStripFrontmatter original)) target content pos))

/-- `insert_at_section` from writer_service.py lines 795-903 (content path):
locate the section, build the modified content, and run the validation gate;
an unknown section is the not-found error. -/
def insertAtSection (original : Str) (sid : SectionId) (content : Str)
    (pos : InsertPos) (dryRun : Bool) : Option (EditResult × Option Str) :=
  let body := readerStripFrontmatter original
  let sections := parseSections body
  match getSection sections sid with
  | none => none
  | some target =>
    some (gateResult (insertModified original target content pos) dryRun
      "Inserted content".toList)

/-- The replacement text built by `replace_section` (writer_service.py lines
953-957): with `preserve_heading` and a truthy heading, the heading line plus
a blank line plus the stripped new content; otherwise the stripped new
content alone. -/
def replacementText (target : MdSection) (newContent : Str) (preserveHeading : Bool) : Str :=
  match preserveHeading, target.heading with
  | true, some h =>
    if h = [] then pyStrip newContent
    else "## ".toList ++ h ++ '\n' :: '\n' :: pyStrip newContent
  | _, _ => pyStrip newContent

/-- The join parts built by `replace_section` (writer_service.py lines
966-979): the target section's content is replaced, and an extra newline
element is placed before every later section that has a heading; the parts
are then joined with newlines. -/
def replaceParts (sections : List MdSection) (target : MdSection) (updated : Str) :
    List Str :=
  sections.enum.flatMap (fun p =>
    (if 0 < p.1 ∧ p.2.heading.isSome then [['\n']] else []) ++
      [if p.2.index = target.index then updated else p.2.content])

/-- The modified content built by `replace_section`. -/
def replaceSectionModified (original : Str) (target : MdSection) (newContent : Str)
    (preserveHeading : Bool) : Str :=
  ensureNl (extractFrontmatter original ++
    joinNl (replaceParts (parseSections (readerStripFrontmatter original)) target
      (replacementText target newContent preserveHeading)))

/-- `replace_section` from writer_service.py lines 905-1018 (content path). -/
def replaceSection (original : Str) (sid : SectionId) (newContent : Str)
    (preserveHeading : Bool) (dryRun : Bool) : Option (EditResult × Option Str) :=
  let body := readerStripFrontmatter original
  let sections := parseSections body
  match getSection sections sid with
  | none => none
  | some target =>
    some (gateResult (replaceSectionModified original target newContent preserveHeading)
      dryRun "Replaced section".toList)

/-- The validation-gate contract asserted by C1 for one operation outcome. -/
def gateSpec (p : EditResult × Option Str) (m : Str) (dry : Bool) : Prop :=
  (validateMarkdown m ≠ [] → p.1.success = false ∧ p.2 = none) ∧
    (validateMarkdown m = [] → p.1.success = true ∧ p.2 = if dry then none else some m) ∧
    (countTriple m % 2 = 1 → unclosedMsg ∈ validateMarkdown m) ∧
    (List.count '[' m ≠ List.count ']' m →
      mismatchedMsg (List.count '[' m) (List.count ']' m) ∈ validateMarkdown m) ∧
    (countTriple m % 2 = 0 ∧ List.count '[' m = List.count ']' m →
      validateMarkdown m = [])

/-- C1 witness document and target section. -/
def c1Doc : Str := "## A\n\nx\n".toList

def c1Target : MdSection := ⟨1, some ['A'], "## A\n\nx\n".toList⟩

/-- `TocEntry` from toc.py lines 25-43: title, optional link path, indent
level, ordered children, part-header flag, and the raw source line. -/
inductive TocEntry where
  | mk (title : Str) (path : Option Str) (indentLevel : Nat)
      (children : List TocEntry) (isPartHeader : Bool) (rawLine : Str)

def TocEntry.title : TocEntry → Str
  | .mk t _ _ _ _ _ => t

def TocEntry.path : TocEntry → Option Str
  | .mk _ p _ _ _ _ => p

def TocEntry.indentLevel : TocEntry → Nat
  | .mk _ _ lv _ _ _ => lv

def TocEntry.children : TocEntry → List TocEntry
  | .mk _ _ _ ch _ _ => ch

def TocEntry.isPartHeader : TocEntry → Bool
  | .mk _ _ _ _ ip _ => ip

def TocEntry.rawLine : TocEntry → Str
  | .mk _ _ _ _ _ raw => raw

/-- Append a child at the end of a node's child list (the Python
`parent.children.append(entry)` mutation, made explicit). -/
def addChild : TocEntry → TocEntry → TocEntry
  | .mk t p lv ch ip raw, n => .mk t p lv (ch ++ [n]) ip raw

/-- `TocStructure` from toc.py lines 46-52. -/
structure TocStructure where
  title : Str
  entries : List TocEntry
  rawHeader : Str

/-- One recognized line of the outline body: a part header (`## ...`) or a
(possibly unlinked) list entry with its indent level.  Unrecognized lines
produce no event. -/
inductive TocEvent where
  | part (title raw : Str)
  | entry (lvl : Nat) (title : Str) (path : Option Str) (raw : Str)
deriving DecidableEq, Repr

/-- Builder state: completed top-level entries plus the stack of
(indent level, node under construction) pairs, deepest first.  In the Python
source the stack nodes are aliases of nodes already attached inside
`structure.entries`; here attachment is deferred until a node leaves the
stack, which yields the same final tree. -/
abbrev TocState := List TocEntry × List (Nat × TocEntry)

/-- The pop loop of `_add_entry_to_structure` (toc.py lines 176-178): pop
while the stack top's indent level is `≥` the new level; each popped node is
attached to the node below it, the last one to the top-level list when the
stack empties. -/
def collapseWhile (lvl : Nat) (st : TocState) : TocState :=
  let popped := st.2.takeWhile (fun e => lvl ≤ e.1)
  let kept := st.2.dropWhile (fun e => lvl ≤ e.1)
  match popped with
  | [] => (st.1, kept)
  | q :: qs =>
    let final := qs.foldl (fun acc e => (e.1, addChild e.2 acc.2)) q
    match kept with
    | (plv, p) :: rest => (st.1, (plv, addChild p final.2) :: rest)
    | [] => (st.1 ++ [final.2], [])

/-- A fresh linked or unlinked entry node (toc.py lines 136-141, 157-162). -/
def mkEntryNode (lvl : Nat) (t : Str) (p : Option Str) (raw : Str) : TocEntry :=
  .mk t p lvl [] false raw

/-- A fresh part-header node (toc.py lines 117-123). -/
def mkPartNode (t raw : Str) : TocEntry :=
  .mk t none 0 [] true raw

/-- One step of the parse loop (toc.py lines 109-164): a part header flushes
the whole stack and is appended at top level with the stack reset; an entry
is attached after the pop loop and pushed. -/
def applyEvent (st : TocState) : TocEvent → TocState
  | .part t r =>
    let st2 := collapseWhile 0 st
    (st2.1 ++ [mkPartNode t r], [])
  | .entry lvl t p raw =>
    let st2 := collapseWhile lvl st
    (st2.1, (lvl, mkEntryNode lvl t p raw) :: st2.2)

/-- Build the entry forest from the recognized line events. -/
def build (evs : List TocEvent) : List TocEntry :=
  (collapseWhile 0 (evs.foldl applyEvent ([], []))).1

/-- Model of `part_pattern = re.compile(r"^##\s+(.+)$")` applied with
`.match`; the backtracking branch (whitespace only after `##`) mirrors the
regex engine giving one whitespace character back to `(.+)`. -/
def partMatch (s : Str) : Option Str :=
  match s with
  | '#' :: '#' :: rest =>
    let w := rest.takeWhile isPyWs
    if w = [] then none
    else if rest.drop w.length ≠ [] then some (rest.drop w.length)
    else if 2 ≤ w.length then some (rest.drop (w.length - 1))
    else none
  | _ => none

/-- Model of `link_pattern = re.compile(r"^(\s*)-\s*\[([^\]]+)\]\(([^)]+)\)\s*$")`:
all quantifiers are forced (the bracket classes exclude their closing
delimiter), so the match is computed deterministically.  Returns the title
and path groups; the indent group `(\s*)` is the leading-whitespace run of
the line, read off separately by `entryLevel`. -/
def linkMatch (line : Str) : Option (Str × Str) :=
  match line.dropWhile isPyWs with
  | '-' :: r1 =>
    match r1.dropWhile isPyWs with
    | '[' :: r3 =>
      let t := r3.takeWhile (fun c => c ≠ ']')
      if t = [] then none
      else
        match r3.drop t.length with
        | ']' :: '(' :: r4 =>
          let p := r4.takeWhile (fun c => c ≠ ')')
          if p = [] then none
          else
            match r4.drop p.length with
            | ')' :: r5 => if r5.all isPyWs then some (t, p) else none
            | _ => none
        | _ => none
    | _ => none
  | _ => none

/-- Model of `text_pattern = re.compile(r"^(\s*)-\s*(.+)\s*$")`: after the
dash, the greedy `\s*` takes the whitespace run; when nothing remains the
engine backtracks one character so that `(.+)` matches the last whitespace
character.  Returns the title group. -/
def textMatch (line : Str) : Option Str :=
  match line.dropWhile isPyWs with
  | '-' :: after =>
    if after = [] then none
    else if after.dropWhile isPyWs ≠ [] then some (after.dropWhile isPyWs)
    else some (after.drop (after.length - 1))
  | _ => none

/-- `indent_level = len(indent_str) // 2` (toc.py lines 131-132, 148-150):
the regex group `(\s*)` is the line's leading-whitespace run. -/
def entryLevel (line : Str) : Nat := (line.takeWhile isPyWs).length / 2

/-- Line classification of the parse loop (toc.py lines 109-164): blank lines
are skipped; the part pattern is tried on the stripped line; then the link
pattern and the text pattern on the raw line; a text title containing `[` is
skipped as a malformed link. -/
def classifyLine (line : Str) : Option TocEvent :=
  let stripped := pyStrip line
  if stripped = [] then none
  else
    match partMatch stripped with
    | some t => some (.part t stripped)
    | none =>
      match linkMatch line with
      | some r => some (.entry (entryLevel line) r.1 (some r.2) line)
      | none =>
        match textMatch line with
        | some t => if '[' ∈ t then none else some (.entry (entryLevel line) t none line)
        | none => none

/-- Header scan of `parse_summary_structure` (toc.py lines 94-99): the first
line starting with `"# "` becomes the raw header and parsing continues after
it; when there is none, the defaults are kept and all lines are parsed. -/
def findHeader : List Str → Option (Str × List Str)
  | [] => none
  | l :: rest =>
    if startsWithL "# ".toList l then some (l, rest) else findHeader rest

/-- `parse_summary_structure` from toc.py lines 80-166. -/
def parseSummaryStructure (content : Str) : TocStructure :=
  match findHeader (splitNl content) with
  | some hr =>
    { title := pyStrip (hr.1.drop 2), rawHeader := hr.1,
      entries := build (hr.2.filterMap classifyLine) }
  | none =>
    { title := "Summary".toList, rawHeader := "# Summary".toList,
      entries := build ((splitNl content).filterMap classifyLine) }

mutual

/-- `TocEntry.to_markdown` (toc.py lines 36-43) followed by the recursive
`render_entries` walk (lines 71-74): the node's own line element (a part
header keeps its raw line surrounded by newlines; a falsy path renders the
plain-text form) followed by the elements of its children. -/
def entryLines : TocEntry → List Str
  | .mk t p lv ch ip raw =>
    (if ip then '\n' :: (raw ++ ['\n'])
     else
       List.replicate (2 * lv) ' ' ++
         (match p with
          | some q =>
            if q = [] then '-' :: ' ' :: t
            else '-' :: ' ' :: '[' :: (t ++ ']' :: '(' :: q ++ [')'])
          | none => '-' :: ' ' :: t)) :: forestLines ch

def forestLines : List TocEntry → List Str
  | [] => []
  | e :: es => entryLines e ++ forestLines es

end

/-- `TocStructure.to_markdown` (toc.py lines 67-77): header line, blank line,
the rendered elements, joined with newlines plus a trailing newline. -/
def toMarkdown (S : TocStructure) : Str :=
  joinNl (S.rawHeader :: [] :: forestLines S.entries) ++ ['\n']

mutual

/-- `TocStructure.get_all_paths` (toc.py lines 54-65): every truthy path
anywhere in the tree (`if entry.path:` skips `None` and the empty string). -/
def entryPaths : TocEntry → List Str
  | .mk _ p _ ch _ _ =>
    (match p with
     | some q => if q = [] then [] else [q]
     | none => []) ++ forestPaths ch

def forestPaths : List TocEntry → List Str
  | [] => []
  | e :: es => entryPaths e ++ forestPaths es

end

/-- `_normalize_path` from toc.py lines 331-337: backslashes to forward
slashes, strip a leading `./`, lowercase. -/
def normalizePath (p : Str) : Str :=
  let n := p.map (fun c => if c = '\\' then '/' else c)
  (if startsWithL "./".toList n then n.drop 2 else n).map pyLower

/-- `pathlib.Path(p).name`: trailing slashes dropped, then the component
after the last slash. -/
def pathName (p : Str) : Str :=
  let q := trimRight (fun c => c = '/') p
  (q.reverse.takeWhile (fun c => c ≠ '/')).reverse

/-- `pathlib.Path(p).stem`: the name minus its suffix; the suffix exists only
when the last dot is at an interior position of the name. -/
def pathStem (p : Str) : Str :=
  let name := pathName p
  let after := name.reverse.takeWhile (fun c => c ≠ '.')
  if after.length = name.length then name
  else
    let i := name.length - 1 - after.length
    if 0 < i ∧ i + 1 < name.length then name.take i else name

/-- Attempt `\d+[-_]?` at the start of `s`; on success return the remainder. -/
def matchDigitsSep (s : Str) : Option Str :=
  let ds := s.takeWhile Char.isDigit
  if ds = [] then none
  else
    match s.drop ds.length with
    | c :: rest => if c = '-' ∨ c = '_' then some rest else some (c :: rest)
    | [] => some []

/-- Case-insensitive prefix test (regex `re.IGNORECASE`). -/
def startsWithCI (pre l : Str) : Bool :=
  startsWithL (pre.map pyLower) (l.map pyLower)

/-- Try `[-_]?` then `\d+[-_]?` on `r`, with the regex backtracking order
(separator first, then without it). -/
def sepDigits (r : Str) : Option Str :=
  match r with
  | c :: rest =>
    if c = '-' ∨ c = '_' then
      match matchDigitsSep rest with
      | some out => some out
      | none => matchDigitsSep (c :: rest)
    else matchDigitsSep (c :: rest)
  | [] => matchDigitsSep []

/-- Model of `re.sub(r"^(ch(apter)?[-_]?)?\d+[-_]?", "", name, flags=IGNORECASE)`
(toc.py line 345): the anchored pattern matches at most once; alternatives
are tried in the regex backtracking order (`chapter`, `ch`, empty group) and
the name is returned unchanged when no alternative completes. -/
def stripChapterNum (name : Str) : Str :=
  let tryChapter :=
    if startsWithCI "chapter".toList name then sepDigits (name.drop 7) else none
  match tryChapter with
  | some out => out
  | none =>
    let tryCh :=
      if startsWithCI "ch".toList name then sepDigits (name.drop 2) else none
    match tryCh with
    | some out => out
    | none =>
      match matchDigitsSep name with
      | some out => out
      | none => name

/-- Python `str.title()` (ASCII model): the first character of every run of
letters is uppercased, the rest lowercased. -/
def pyTitleAux : Bool → Str → Str
  | _, [] => []
  | prevAlpha, c :: cs =>
    (if c.isAlpha then (if prevAlpha then Char.toLower c else Char.toUpper c) else c)
      :: pyTitleAux c.isAlpha cs

def pyTitle (s : Str) : Str := pyTitleAux false s

/-- `_path_to_title` from toc.py lines 340-356: stem, strip the chapter
number prefix, kebab/snake to spaces, title case; fall back to the raw stem
title-cased when nothing remains. -/
def pathToTitle (p : Str) : Str :=
  let name := stripChapterNum (pathStem p)
  let name2 := name.map (fun c => if c = '-' ∨ c = '_' then ' ' else c)
  if name2 ≠ [] then pyTitle name2 else pyTitle (pathStem p)

/-- `_update_preserving_structure` from toc.py lines 281-312 (pure part; the
file write persists `toMarkdown` of the returned structure): classify each
discovered path by normalized membership in the existing path set, and
append a fresh top-level leaf for every added path at the end of the
entry list. -/
def updatePreservingStructure (S : TocStructure) (discovered : List Str) :
    TocStructure × List Str × List Str :=
  let existingN := (forestPaths S.entries).map normalizePath
  let cls := discovered.foldl
    (fun (acc : List Str × List Str) fp =>
      if normalizePath fp ∈ existingN then (acc.1, acc.2 ++ [fp])
      else (acc.1 ++ [fp], acc.2))
    ([], [])
  ({ S with entries := S.entries ++ cls.1.map (fun fp =>
      TocEntry.mk (pathToTitle fp) (some fp) 0 [] false []) },
    cls.1, cls.2)

/-- One-level projection of an entry to decidable data. -/
structure EntryView where
  t : Str
  p : Option Str
  lv : Nat
  kids : List (Str × Option Str × Nat)
deriving DecidableEq, Repr

def entryView (e : TocEntry) : EntryView :=
  ⟨e.title, e.path, e.indentLevel,
    e.children.map (fun c => (c.title, c.path, c.indentLevel))⟩

mutual

/-- The pre-order event sequence of an entry: the event its own fields encode
followed by the events of its children. -/
def entryEvents : TocEntry → List TocEvent
  | .mk t p lv ch ip raw =>
    (if ip then TocEvent.part t raw else TocEvent.entry lv t p raw) :: forestEvents ch

def forestEvents : List TocEntry → List TocEvent
  | [] => []
  | e :: es => entryEvents e ++ forestEvents es

end

/-- The rendered line element of a recognized line event (matches the
per-node element of `entryLines`). -/
def eventLine : TocEvent → Str
  | .part _ r => '\n' :: (r ++ ['\n'])
  | .entry lv t p _ =>
    List.replicate (2 * lv) ' ' ++
      (match p with
       | some q =>
         if q = [] then '-' :: ' ' :: t
         else '-' :: ' ' :: '[' :: (t ++ ']' :: '(' :: q ++ [')'])
       | none => '-' :: ' ' :: t)

/-- The truthy path contributed by an event (matches `entryPaths`). -/
def eventPath : TocEvent → List Str
  | .entry _ _ (some q) _ => if q = [] then [] else [q]
  | _ => []

/-- Concatenated `E`-values of a stack, deepest entry last. -/
def spineOf (E : TocEntry → List α) : List (Nat × TocEntry) → List α
  | [] => []
  | e :: rest => spineOf E rest ++ E e.2

/-- Total `E`-value of a builder state: the done entries then the stack. -/
def stTotal (E : TocEntry → List α) (st : TocState) : List α :=
  st.1.flatMap E ++ spineOf E st.2

/-- Erase the raw line recorded in an entry event (part raws round-trip
exactly and are kept). -/
def eraseEv : TocEvent → TocEvent
  | .part t r => .part t r
  | .entry lv t p _ => .entry lv t p []

mutual

/-- Erase the recorded raw lines of non-part nodes throughout a tree; titles,
paths, levels, part flags, part raw lines and the child structure are kept. -/
def eraseEntry : TocEntry → TocEntry
  | .mk t p lv ch ip raw => .mk t p lv (eraseForest ch) ip (if ip then raw else [])

def eraseForest : List TocEntry → List TocEntry
  | [] => []
  | e :: es => eraseEntry e :: eraseForest es

end

/-- Erasure lifted to builder states. -/
def eraseSt (st : TocState) : TocState :=
  (eraseForest st.1, st.2.map (fun e => (e.1, eraseEntry e.2)))

/-- Replace an entry event's recorded raw line by its rendered line (what a
reparse of the serialization records); part events are unchanged because the
raw part line round-trips exactly. -/
def rerawEv : TocEvent → TocEvent
  | .part t r => .part t r
  | .entry lv t p raw => .entry lv t p (eventLine (.entry lv t p raw))

/-- Events whose rendered line re-classifies to the same event (up to the
recorded raw line): exactly the events the parser itself produces. -/
def wfEvent : TocEvent → Prop
  | .part t r => pyStrip r = r ∧ partMatch r = some t ∧ '\n' ∉ r ∧ r ≠ []
  | .entry _ t (some p) _ =>
    t ≠ [] ∧ ']' ∉ t ∧ '\n' ∉ t ∧ p ≠ [] ∧ ')' ∉ p ∧ '\n' ∉ p
  | .entry _ t none _ =>
    '[' ∉ t ∧ '\n' ∉ t ∧ ∃ c cs, t = c :: cs ∧ (isPyWs c = false ∨ cs = [])

/-- C6 witness: a concrete outline fragment around a part-header line, and a
concrete indented entry line. -/
def c6L1 : List Str := ["- [A](a.md)".toList]

def c6L2 : List Str := ["- [B](b.md)".toList]

def c6GH : Str := "## Part I".toList

def c6Line : Str := "  - [C](c.md)".toList

/-- C8 failing input: a chapter body that already ends with a newline. -/
def c8Orig : Str := "A.\n".toList

/-- The fresh top-level leaf node appended by the merge for an added path
(toc.py lines 303-309). -/
def leafEntry (fp : Str) : TocEntry :=
  TocEntry.mk (pathToTitle fp) (some fp) 0 [] false []

/-- The event whose build step produces exactly `leafEntry`. -/
def leafEvent (fp : Str) : TocEvent :=
  .entry 0 (pathToTitle fp) (some fp) []

/-- C7 failing input for byte-exactness: an outline with a double blank line
after the header; all discovered paths are present and nothing is added, yet
the written text differs from the original because the parse-serialize cycle
collapses the blank lines. -/
def c7cT : Str := "# Summary\n\n\n- [A](a.md)\n".toList

/-- C7 witness outline, already in serialized form. -/
def c7wT : Str := "# Summary\n\n- [A](a.md)\n".toList

/-- C4 failing input for the unconditional claim: a path containing `)`.  The
first merge adds it; the rendered link line truncates the path at the `)`
when re-parsed (the link pattern path group excludes `)`), in fact the whole
line is rejected as a malformed link, so the second merge adds the same path
again. -/
def c4cT : Str := "# Summary\n".toList

/-- C4 witness outline and discovered paths: one present path, one new
well-behaved path. -/
def c4wT : Str := "# Summary\n\n- [Intro](intro.md)\n".toList

def c4wP : List Str := ["intro.md".toList, "extra.md".toList]

theorem char_toNat_ofNat (n : Nat) (h : n.isValidChar) : (Char.ofNat n).toNat = n := by
  simp only [Char.ofNat, h, dite_true, Char.ofNatAux, Char.toNat]
  simp [UInt32.toNat]

theorem pyLower_eq (c : Char) :
    pyLower c = if c.toNat ≥ 65 ∧ c.toNat ≤ 90 then Char.ofNat (c.toNat + 32) else c := rfl

theorem pyLower_pyLower (c : Char) : pyLower (pyLower c) = pyLower c := by
  by_cases h : c.toNat ≥ 65 ∧ c.toNat ≤ 90
  · have hv : (Char.ofNat (c.toNat + 32)).toNat = c.toNat + 32 :=
      char_toNat_ofNat _ (Or.inl (by omega))
    rw [pyLower_eq c, if_pos h, pyLower_eq, hv, if_neg (by omega)]
  · rw [pyLower_eq c, if_neg h, pyLower_eq, if_neg h]

theorem mem_trimRight {p : Char → Bool} {l : Str} {c : Char}
    (h : c ∈ trimRight p l) : c ∈ l := by
  induction l with
  | nil => simp [trimRight] at h
  | cons a as ih =>
    rw [trimRight] at h
    rcases hr : trimRight p as with _ | ⟨b, bs⟩ <;> rw [hr] at h
    · by_cases hp : p a
      · rw [if_pos hp] at h
        cases h
      · rw [if_neg hp] at h
        rw [List.mem_singleton] at h
        subst h
        exact List.mem_cons_self _ _
    · rcases List.mem_cons.mp h with rfl | h2
      · exact List.mem_cons_self c as
      · exact List.mem_cons_of_mem _ (ih (hr ▸ h2))

theorem head?_trimRight {p : Char → Bool} {l : Str} {c : Char}
    (h : (trimRight p l).head? = some c) : l.head? = some c := by
  cases l with
  | nil => simp [trimRight] at h
  | cons a as =>
    rw [trimRight] at h
    rcases hr : trimRight p as with _ | ⟨b, bs⟩ <;> rw [hr] at h
    · by_cases hp : p a
      · rw [if_pos hp] at h
        cases h
      · rw [if_neg hp] at h
        simpa using h
    · simpa using h

theorem getLast?_trimRight {p : Char → Bool} {l : Str} {c : Char}
    (h : (trimRight p l).getLast? = some c) : p c = false := by
  induction l with
  | nil => simp [trimRight] at h
  | cons a as ih =>
    rw [trimRight] at h
    rcases hr : trimRight p as with _ | ⟨b, bs⟩ <;> rw [hr] at h
    · by_cases hp : p a
      · rw [if_pos hp] at h
        cases h
      · rw [if_neg hp] at h
        simp at h
        rw [← h]
        exact Bool.eq_false_iff.mpr hp
    · rw [List.getLast?_cons_cons] at h
      exact ih (hr ▸ h)

theorem trimRight_eq_self {p : Char → Bool} {l : Str}
    (h : ∀ c, l.getLast? = some c → p c = false) : trimRight p l = l := by
  induction l with
  | nil => rfl
  | cons a as ih =>
    cases as with
    | nil =>
      have := h a (by simp)
      simp [trimRight, this]
    | cons b bs =>
      have hih : trimRight p (b :: bs) = b :: bs := by
        apply ih
        intro c hc
        apply h
        rw [List.getLast?_cons_cons]
        exact hc
      rw [trimRight, hih]

theorem dropWhile_eq_self {p : Char → Bool} {l : Str}
    (h : ∀ c, l.head? = some c → p c = false) : l.dropWhile p = l := by
  cases l with
  | nil => rfl
  | cons a as =>
    have := h a (by simp)
    simp [List.dropWhile_cons, this]

theorem head?_dropWhile {p : Char → Bool} {l : Str} {c : Char}
    (h : (l.dropWhile p).head? = some c) : p c = false := by
  induction l with
  | nil => simp at h
  | cons a as ih =>
    rw [List.dropWhile_cons] at h
    by_cases hp : p a
    · simp only [hp, if_true] at h
      exact ih h
    · simp only [hp, if_false] at h
      simp at h
      rw [← h]
      exact Bool.eq_false_iff.mpr hp

theorem chain'_trimRight {p : Char → Bool} {l : Str}
    (h : List.Chain' noDD l) : List.Chain' noDD (trimRight p l) := by
  induction l with
  | nil => simp [trimRight]
  | cons a as ih =>
    rw [trimRight]
    rcases hr : trimRight p as with _ | ⟨b, bs⟩
    · by_cases hp : p a <;> simp [hp]
    · rw [List.chain'_cons'] at h ⊢
      constructor
      · intro y hy
        apply h.1
        have : (trimRight p as).head? = some y := by rw [hr]; simpa using hy
        exact head?_trimRight this
      · exact hr ▸ ih h.2

theorem chain'_dropWhile {p : Char → Bool} {l : Str}
    (h : List.Chain' noDD l) : List.Chain' noDD (l.dropWhile p) := by
  induction l with
  | nil => simp
  | cons a as ih =>
    rw [List.dropWhile_cons]
    by_cases hp : p a
    · simp only [hp, if_true]
      exact ih (List.Chain'.tail h)
    · simpa [hp] using h

theorem mem_collapseSeps {l : Str} {b : Bool} {c : Char}
    (h : c ∈ collapseSeps b l) : c = '-' ∨ (c ∈ l ∧ isSepChar c = false) := by
  induction l generalizing b with
  | nil => simp [collapseSeps] at h
  | cons a as ih =>
    rw [collapseSeps] at h
    by_cases hs : isSepChar a
    · rw [if_pos hs] at h
      cases b with
      | true =>
        rw [if_pos rfl] at h
        rcases ih h with h1 | h2
        · exact Or.inl h1
        · exact Or.inr ⟨List.mem_cons_of_mem _ h2.1, h2.2⟩
      | false =>
        simp only [Bool.false_eq_true, if_false] at h
        rcases List.mem_cons.mp h with rfl | h2
        · exact Or.inl rfl
        · rcases ih h2 with h3 | h4
          · exact Or.inl h3
          · exact Or.inr ⟨List.mem_cons_of_mem _ h4.1, h4.2⟩
    · rw [if_neg hs] at h
      rcases List.mem_cons.mp h with rfl | h2
      · exact Or.inr ⟨List.mem_cons_self c as, Bool.eq_false_iff.mpr hs⟩
      · rcases ih h2 with h3 | h4
        · exact Or.inl h3
        · exact Or.inr ⟨List.mem_cons_of_mem _ h4.1, h4.2⟩

theorem head?_collapseSeps_true {l : Str} {c : Char}
    (h : (collapseSeps true l).head? = some c) : isSepChar c = false := by
  induction l with
  | nil => simp [collapseSeps] at h
  | cons a as ih =>
    rw [collapseSeps] at h
    by_cases hs : isSepChar a
    · rw [if_pos hs, if_pos rfl] at h
      exact ih h
    · rw [if_neg hs] at h
      simp at h
      rw [← h]
      exact Bool.eq_false_iff.mpr hs

theorem chain'_collapseSeps (l : Str) (b : Bool) :
    List.Chain' noDD (collapseSeps b l) := by
  induction l generalizing b with
  | nil => simp [collapseSeps]
  | cons a as ih =>
    rw [collapseSeps]
    by_cases hs : isSepChar a
    · rw [if_pos hs]
      cases b with
      | true =>
        rw [if_pos rfl]
        exact ih true
      | false =>
        simp only [Bool.false_eq_true, if_false]
        rw [List.chain'_cons']
        refine ⟨?_, ih true⟩
        intro y hy
        have hns : isSepChar y = false := head?_collapseSeps_true (by simpa using hy)
        intro hcontra
        rw [hcontra.2] at hns
        exact absurd hns (by decide)
    · rw [if_neg hs]
      rw [List.chain'_cons']
      refine ⟨?_, ih false⟩
      intro y hy
      intro hcontra
      rw [hcontra.1] at hs
      exact hs (by decide)

theorem collapseSeps_eq_self {l : Str}
    (hgood : ∀ c ∈ l, c = '-' ∨ isSepChar c = false)
    (hchain : List.Chain' noDD l) :
    collapseSeps false l = l ∧ (l.head? ≠ some '-' → collapseSeps true l = l) := by
  induction l with
  | nil => exact ⟨rfl, fun _ => rfl⟩
  | cons a as ih =>
    have htail := ih (fun c hc => hgood c (List.mem_cons_of_mem _ hc)) (List.Chain'.tail hchain)
    by_cases hs : isSepChar a
    · have ha : a = '-' := by
        rcases hgood a (List.mem_cons_self a as) with h1 | h2
        · exact h1
        · rw [hs] at h2; cases h2
      have hhead : as.head? ≠ some '-' := by
        intro hcontra
        rw [List.chain'_cons'] at hchain
        exact hchain.1 '-' (by simpa using hcontra) ⟨ha, rfl⟩
      constructor
      · rw [collapseSeps, if_pos hs]
        simp only [Bool.false_eq_true, if_false]
        rw [htail.2 hhead, ha]
      · intro hcontra
        exfalso
        apply hcontra
        rw [ha]
        simp
    · have h1 : collapseSeps false as = as := htail.1
      have hstep : collapseSeps false (a :: as) = a :: as := by
        rw [collapseSeps, if_neg hs, h1]
      refine ⟨hstep, fun _ => ?_⟩
      rw [collapseSeps, if_neg hs, h1]

theorem map_eq_self {f : Char → Char} {l : Str}
    (h : ∀ c ∈ l, f c = c) : l.map f = l := by
  induction l with
  | nil => rfl
  | cons a as ih =>
    rw [List.map_cons, h a (List.mem_cons_self a as),
      ih (fun c hc => h c (List.mem_cons_of_mem _ hc))]

theorem filter_eq_self_of {p : Char → Bool} {l : Str}
    (h : ∀ c ∈ l, p c = true) : l.filter p = l :=
  List.filter_eq_self.mpr h

/-- Characterization of the characters of a slug. -/
theorem mem_writerSlugify {x : Str} {c : Char} (h : c ∈ writerSlugify x) :
    c = '-' ∨ (isSepChar c = false ∧ keepChar c = true ∧ pyLower c = c) := by
  unfold writerSlugify at h
  have h1 : c ∈ collapseSeps false ((pyStrip (x.map pyLower)).filter keepChar) := by
    unfold trimBoth at h
    exact List.Sublist.mem (mem_trimRight h) (List.dropWhile_sublist _)
  rcases mem_collapseSeps h1 with hd | ⟨hmem, hns⟩
  · exact Or.inl hd
  · right
    refine ⟨hns, (List.mem_filter.mp hmem).2, ?_⟩
    have h2 : c ∈ pyStrip (x.map pyLower) := (List.mem_filter.mp hmem).1
    have h3 : c ∈ x.map pyLower := by
      unfold pyStrip trimBoth at h2
      exact List.Sublist.mem (mem_trimRight h2) (List.dropWhile_sublist _)
    rcases List.mem_map.mp h3 with ⟨a, _, ha⟩
    rw [← ha]
    exact pyLower_pyLower a

theorem chain'_writerSlugify (x : Str) : List.Chain' noDD (writerSlugify x) := by
  unfold writerSlugify trimBoth
  exact chain'_trimRight (chain'_dropWhile (chain'_collapseSeps _ false))

theorem head?_writerSlugify {x : Str} {c : Char}
    (h : (writerSlugify x).head? = some c) : c ≠ '-' := by
  unfold writerSlugify trimBoth at h
  have := head?_dropWhile (head?_trimRight h)
  intro hcontra
  rw [hcontra] at this
  simp at this

theorem getLast?_writerSlugify {x : Str} {c : Char}
    (h : (writerSlugify x).getLast? = some c) : c ≠ '-' := by
  unfold writerSlugify trimBoth at h
  have := getLast?_trimRight h
  intro hcontra
  rw [hcontra] at this
  simp at this

theorem writerSlugify_idem (x : Str) :
    writerSlugify (writerSlugify x) = writerSlugify x := by
  set y := writerSlugify x with hy
  have hgood : ∀ c ∈ y, c = '-' ∨ (isSepChar c = false ∧ keepChar c = true ∧ pyLower c = c) :=
    fun c hc => mem_writerSlugify hc
  have hmap : y.map pyLower = y := by
    apply map_eq_self
    intro c hc
    rcases hgood c hc with h1 | h2
    · rw [h1]; decide
    · exact h2.2.2
  have hnws : ∀ c ∈ y, isPyWs c = false := by
    intro c hc
    rcases hgood c hc with h1 | h2
    · rw [h1]; decide
    · have hsep := h2.1
      unfold isSepChar at hsep
      simp only [Bool.or_eq_false_iff] at hsep
      exact hsep.1.1
  have hstrip : pyStrip y = y := by
    unfold pyStrip trimBoth
    rw [dropWhile_eq_self (fun c hc =>
      hnws c (List.mem_of_mem_head? (Option.mem_def.mpr hc)))]
    apply trimRight_eq_self
    intro c hc
    exact hnws c (List.mem_of_getLast?_eq_some hc)
  have hfilter : y.filter keepChar = y := by
    apply filter_eq_self_of
    intro c hc
    rcases hgood c hc with h1 | h2
    · rw [h1]; decide
    · exact h2.2.1
  have hcollapse : collapseSeps false y = y :=
    (collapseSeps_eq_self (fun c hc => (hgood c hc).imp id And.left) (chain'_writerSlugify x)).1
  have htrim : trimBoth (fun c => c = '-') y = y := by
    unfold trimBoth
    rw [dropWhile_eq_self (fun c hc => by
      have hne : c ≠ '-' := head?_writerSlugify (hy ▸ hc)
      simpa using hne)]
    apply trimRight_eq_self
    intro c hc
    have hne : c ≠ '-' := getLast?_writerSlugify (hy ▸ hc)
    simpa using hne
  show writerSlugify y = y
  unfold writerSlugify
  rw [hmap, hstrip, hfilter, hcollapse, htrim]

/-- C9: `slugify` is idempotent, its result never has a leading or trailing
hyphen, and the empty input yields the empty string. -/
theorem claim_C9 :
    ∀ x : Str, writerSlugify (writerSlugify x) = writerSlugify x ∧
      noEdgeDash (writerSlugify x) = true ∧ writerSlugify ([] : Str) = [] := by
  intro x
  refine ⟨writerSlugify_idem x, ?_, rfl⟩
  unfold noEdgeDash
  rw [Bool.and_eq_true]
  constructor
  · rcases hh : (writerSlugify x).head? with _ | c
    · simp
    · have := head?_writerSlugify hh
      simpa using this
  · rcases hh : (writerSlugify x).getLast? with _ | c
    · simp
    · have := getLast?_writerSlugify hh
      simpa using this

/-- C10: the four slugify implementations duplicated across the codebase are
extensionally equal: on every input all four return the same output. -/
theorem claim_C10 :
    ∀ x : Str, writerSlugify x = tocServiceSlugify x ∧
      tocServiceSlugify x = indexServiceSlugify x ∧
      indexServiceSlugify x = contentSlugify x :=
  fun _ => ⟨rfl, rfl, rfl⟩

/-! ## Frontmatter splitting -/

/-- C2 (amended): when a document has frontmatter, the frontmatter block
extracted by the edit operations concatenated with the body returned by the
TOC-service splitter reconstructs the document byte-for-byte, provided the
body does not begin with whitespace: the splitter applies `lstrip` to the
remainder, which deletes any leading body whitespace. -/
theorem claim_C2 :
    ∀ (d : Str) (k : Nat), startsWithL "---".toList d = true →
      findClose (d.drop 3) = some k →
      headNotWs (d.drop (3 + k)) = true →
      extractFrontmatter d ++ tocStripFrontmatter d = d := by
  intro d k hstart hfind hws
  unfold extractFrontmatter tocStripFrontmatter
  rw [hstart, hfind]
  have hdrop : (d.drop (3 + k)).dropWhile isPyWs = d.drop (3 + k) := by
    apply dropWhile_eq_self
    intro c hc
    unfold headNotWs at hws
    rw [hc] at hws
    simpa using hws
  show d.take (3 + k) ++ (d.drop (3 + k)).dropWhile isPyWs = d
  rw [hdrop]
  exact List.take_append_drop _ _

/-- C2 is false as stated: with frontmatter present, re-joining the extracted
frontmatter block and the splitter body loses the leading body whitespace. -/
theorem claim_C2_counterexample :
    ¬(extractFrontmatter c2Doc ++ tocStripFrontmatter c2Doc = c2Doc) := by
  decide

theorem claim_C2_witness :
    startsWithL "---".toList c2WDoc = true ∧ findClose (c2WDoc.drop 3) = some 10 ∧
      extractFrontmatter c2WDoc ++ tocStripFrontmatter c2WDoc = c2WDoc :=
  ⟨by decide, by decide, claim_C2 c2WDoc 10 (by decide) (by decide) (by decide)⟩

/-! ## Document mutator operations and the validation gate -/

theorem gateResult_spec (m : Str) (dry : Bool) (okMsg : Str) :
    gateSpec (gateResult m dry okMsg) m dry := by
  refine ⟨?_, ?_, ?_, ?_, ?_⟩
  · intro hw
    unfold gateResult
    rw [if_pos hw]
    exact ⟨rfl, rfl⟩
  · intro hw
    unfold gateResult
    rw [if_neg (by rw [hw]; simp)]
    cases dry with
    | true => simp
    | false => simp
  · intro hodd
    unfold validateMarkdown
    have : countTriple m % 2 ≠ 0 := by omega
    rw [if_pos this]
    exact List.mem_append_left _ (List.mem_singleton.mpr rfl)
  · intro hne
    unfold validateMarkdown
    rw [if_pos hne]
    exact List.mem_append_right _ (List.mem_singleton.mpr rfl)
  · intro hok
    unfold validateMarkdown
    rw [if_neg (by omega), if_neg (by simp [hok.2])]
    rfl

/-- C1: every edit operation (replace-whole, append, insert-at-section,
replace-section) validates the resulting full document text before any
write: an odd triple-backtick count produces the unclosed-code-block
warning, an unequal bracket count produces the mismatched-brackets warning,
any warning forces `success = false` and suppresses the write, and with
balanced fences and brackets there are no warnings and the edit proceeds
(writing unless dry-run). -/
theorem claim_C1 :
    ∀ (original newC appC insC repC : Str) (sid sid2 : SectionId) (pos : InsertPos)
      (ph dry : Bool),
      gateSpec (updateChapterContent original newC dry) (replaceWholeContent original newC)
        dry ∧
      gateSpec (appendToChapter original appC dry) (appendContent original appC) dry ∧
      (∀ target, getSection (parseSections (readerStripFrontmatter original)) sid =
          some target →
        insertAtSection original sid insC pos dry =
          some (gateResult (insertModified original target insC pos) dry
            "Inserted content".toList) ∧
        gateSpec (gateResult (insertModified original target insC pos) dry
            "Inserted content".toList)
          (insertModified original target insC pos) dry) ∧
      (∀ target, getSection (parseSections (readerStripFrontmatter original)) sid2 =
          some target →
        replaceSection original sid2 repC ph dry =
          some (gateResult (replaceSectionModified original target repC ph) dry
            "Replaced section".toList) ∧
        gateSpec (gateResult (replaceSectionModified original target repC ph) dry
            "Replaced section".toList)
          (replaceSectionModified original target repC ph) dry) := by
  intro original newC appC insC repC sid sid2 pos ph dry
  refine ⟨gateResult_spec _ _ _, gateResult_spec _ _ _, ?_, ?_⟩
  · intro target htarget
    constructor
    · simp only [insertAtSection]
      rw [htarget]
    · exact gateResult_spec _ _ _
  · intro target htarget
    constructor
    · simp only [replaceSection]
      rw [htarget]
    · exact gateResult_spec _ _ _

theorem claim_C1_witness :
    getSection (parseSections (readerStripFrontmatter c1Doc)) (.byIndex 1) =
      some c1Target ∧
    gateSpec (updateChapterContent c1Doc "y".toList false)
      (replaceWholeContent c1Doc "y".toList) false ∧
    insertAtSection c1Doc (.byIndex 1) "z".toList .after false =
      some (gateResult (insertModified c1Doc c1Target "z".toList .after) false
        "Inserted content".toList) := by
  have h := claim_C1 c1Doc "y".toList "a".toList "z".toList "w".toList
    (.byIndex 1) (.byIndex 1) .after true false
  have htarget : getSection (parseSections (readerStripFrontmatter c1Doc)) (.byIndex 1) =
      some c1Target := by decide
  exact ⟨htarget, h.1, (h.2.2.1 c1Target htarget).1⟩

/-! ## Table of contents: src/src/writer_reader/toc.py -/

/-- Sanity check mirroring `test_parse_nested_entries` of tests/test_toc.py. -/
example :
    (parseSummaryStructure
      "# Summary\n\n- [Basics](basics/index.md)\n  - [Installation](basics/install.md)\n  - [Configuration](basics/config.md)\n- [Advanced](advanced/index.md)\n  - [Plugins](advanced/plugins.md)\n".toList).entries.map
        entryView =
    [⟨"Basics".toList, some "basics/index.md".toList, 0,
      [("Installation".toList, some "basics/install.md".toList, 1),
       ("Configuration".toList, some "basics/config.md".toList, 1)]⟩,
     ⟨"Advanced".toList, some "advanced/index.md".toList, 0,
      [("Plugins".toList, some "advanced/plugins.md".toList, 1)]⟩] := by decide

/-- Sanity check mirroring `test_part_headers_reset_hierarchy`: the entry
after a part header is top level. -/
example :
    (parseSummaryStructure
      "# Summary\n\n## Part I\n\n- [Chapter 1](ch1.md)\n  - [Section 1.1](s1-1.md)\n\n## Part II\n\n- [Chapter 2](ch2.md)\n".toList).entries.map
        (fun e => (e.title, e.isPartHeader, e.children.length)) =
    [("Part I".toList, true, 0), ("Chapter 1".toList, false, 1),
     ("Part II".toList, true, 0), ("Chapter 2".toList, false, 0)] := by decide

/-- Sanity checks mirroring `TestPathToTitle` of tests/test_toc.py. -/
example : pathToTitle "introduction.md".toList = "Introduction".toList := by decide

example : pathToTitle "getting-started.md".toList = "Getting Started".toList := by decide

example : pathToTitle "user_guide.md".toList = "User Guide".toList := by decide

example : pathToTitle "ch01-introduction.md".toList = "Introduction".toList := by decide

example : pathToTitle "chapter-02-basics.md".toList = "Basics".toList := by decide

example : pathToTitle "chapters/ch01-intro.md".toList = "Intro".toList := by decide

/-- Sanity checks mirroring `TestNormalizePath`. -/
example : normalizePath "./intro.md".toList = "intro.md".toList := by decide

example : normalizePath "Chapter/INTRO.md".toList = "chapter/intro.md".toList := by decide

/-- Sanity check mirroring `test_to_markdown_roundtrip` and spec property 7:
merge of a nested outline with one new path. -/
example :
    (updatePreservingStructure
      (parseSummaryStructure
        "# Summary\n\n- [Intro](intro.md)\n  - [Setup](setup.md)\n- [Main](main.md)\n".toList)
      ["intro.md".toList, "setup.md".toList, "main.md".toList, "extra.md".toList]).2 =
    (["extra.md".toList], ["intro.md".toList, "setup.md".toList, "main.md".toList]) := by
  decide

/-- The line-classification loop of the merge (toc.py lines 292-300) written
as a fold step; used to state the filter characterization. -/
theorem classify_foldl (existingN : List Str) (P : List Str) (a b : List Str) :
    P.foldl
      (fun (acc : List Str × List Str) fp =>
        if normalizePath fp ∈ existingN then (acc.1, acc.2 ++ [fp])
        else (acc.1 ++ [fp], acc.2)) (a, b) =
    (a ++ P.filter (fun fp => !decide (normalizePath fp ∈ existingN)),
      b ++ P.filter (fun fp => decide (normalizePath fp ∈ existingN))) := by
  induction P generalizing a b with
  | nil => simp
  | cons fp P ih =>
    by_cases h : normalizePath fp ∈ existingN
    · rw [List.foldl_cons, if_pos h, ih]
      simp [h]
    · rw [List.foldl_cons, if_neg h, ih]
      simp [h]

/-- C3: the merge classifies a discovered path as already present exactly when
its normalized form equals the normalized form of some stored path, never
alters the stored entries, and appends every other path as a fresh top-level
leaf (title generated by `pathToTitle`, level 0, no children) at the end of
the entry list, in discovery order. -/
theorem claim_C3 :
    ∀ (S : TocStructure) (P : List Str),
      (updatePreservingStructure S P).2.2 =
        P.filter (fun fp =>
          decide (normalizePath fp ∈ (forestPaths S.entries).map normalizePath)) ∧
      (updatePreservingStructure S P).2.1 =
        P.filter (fun fp =>
          !decide (normalizePath fp ∈ (forestPaths S.entries).map normalizePath)) ∧
      (updatePreservingStructure S P).1.entries =
        S.entries ++ (updatePreservingStructure S P).2.1.map
          (fun fp => TocEntry.mk (pathToTitle fp) (some fp) 0 [] false []) ∧
      (updatePreservingStructure S P).1.rawHeader = S.rawHeader ∧
      (updatePreservingStructure S P).1.title = S.title := by
  intro S P
  simp only [updatePreservingStructure]
  rw [classify_foldl]
  simp

/-- The done list is only appended to: processing events from a state with a
nonempty done list prepends that list to the final outcome. -/
theorem collapseWhile_done (lvl : Nat) (d extra : List TocEntry)
    (sp : List (Nat × TocEntry)) :
    collapseWhile lvl (extra ++ d, sp) =
      (extra ++ (collapseWhile lvl (d, sp)).1, (collapseWhile lvl (d, sp)).2) := by
  unfold collapseWhile
  rcases h : List.takeWhile (fun e => decide (lvl ≤ e.1)) sp with _ | ⟨q, qs⟩ <;>
    rcases hk : List.dropWhile (fun e => decide (lvl ≤ e.1)) sp with _ | ⟨⟨plv, p⟩, rest⟩ <;>
    simp [h, hk]

theorem applyEvent_done (d extra : List TocEntry) (sp : List (Nat × TocEntry))
    (e : TocEvent) :
    applyEvent (extra ++ d, sp) e =
      (extra ++ (applyEvent (d, sp) e).1, (applyEvent (d, sp) e).2) := by
  cases e with
  | part t r => simp [applyEvent, collapseWhile_done]
  | entry lvl t p raw => simp [applyEvent, collapseWhile_done]

theorem foldl_applyEvent_done (evs : List TocEvent) :
    ∀ (d extra : List TocEntry) (sp : List (Nat × TocEntry)),
      evs.foldl applyEvent (extra ++ d, sp) =
        (extra ++ (evs.foldl applyEvent (d, sp)).1, (evs.foldl applyEvent (d, sp)).2) := by
  induction evs with
  | nil => intro d extra sp; rfl
  | cons e evs ih =>
    intro d extra sp
    rw [List.foldl_cons, List.foldl_cons, applyEvent_done]
    rcases hst : applyEvent (d, sp) e with ⟨d2, sp2⟩
    exact ih d2 extra sp2

theorem foldl_applyEvent_start (evs : List TocEvent) (extra : List TocEntry) :
    evs.foldl applyEvent (extra, []) =
      (extra ++ (evs.foldl applyEvent ([], [])).1, (evs.foldl applyEvent ([], [])).2) := by
  have h := foldl_applyEvent_done evs [] extra []
  simpa using h

/-- Processing a part-header event flushes the stack and resets it: the build
of any event list around a part event decomposes into independent forests
with the part node between them at top level. -/
theorem build_part_decomp (evs1 evs2 : List TocEvent) (t r : Str) :
    build (evs1 ++ .part t r :: evs2) =
      build evs1 ++ mkPartNode t r :: build evs2 := by
  unfold build
  rw [List.foldl_append, List.foldl_cons]
  have happly : applyEvent (evs1.foldl applyEvent ([], [])) (.part t r) =
      ((collapseWhile 0 (evs1.foldl applyEvent ([], []))).1 ++ [mkPartNode t r], []) := by
    rfl
  rw [happly, foldl_applyEvent_start, collapseWhile_done]
  simp

theorem spineOf_append (E : TocEntry → List α) (u v : List (Nat × TocEntry)) :
    spineOf E (u ++ v) = spineOf E v ++ spineOf E u := by
  induction u with
  | nil => simp [spineOf]
  | cons e u ih => simp [spineOf, ih]

theorem foldl_attach (E : TocEntry → List α)
    (hadd : ∀ p n, E (addChild p n) = E p ++ E n) :
    ∀ (qs : List (Nat × TocEntry)) (q : Nat × TocEntry),
      E ((qs.foldl (fun acc e => (e.1, addChild e.2 acc.2)) q).2) =
        spineOf E qs ++ E q.2 := by
  intro qs
  induction qs with
  | nil => intro q; simp [spineOf]
  | cons e qs ih =>
    intro q
    rw [List.foldl_cons, ih]
    simp [spineOf, hadd]

theorem dropWhile_zero_le (l : List (Nat × TocEntry)) :
    List.dropWhile (fun e => decide (0 ≤ e.1)) l = [] := by
  induction l with
  | nil => rfl
  | cons e l ih => simp [List.dropWhile_cons, ih]

theorem takeWhile_zero_le (l : List (Nat × TocEntry)) :
    List.takeWhile (fun e => decide (0 ≤ e.1)) l = l := by
  induction l with
  | nil => rfl
  | cons e l ih => simp [List.takeWhile_cons, ih]

theorem collapseWhile_zero_spine (st : TocState) : (collapseWhile 0 st).2 = [] := by
  obtain ⟨d, sp⟩ := st
  simp only [collapseWhile]
  rw [takeWhile_zero_le, dropWhile_zero_le]
  cases sp <;> simp

theorem collapse_total (E : TocEntry → List α)
    (hadd : ∀ p n, E (addChild p n) = E p ++ E n) (lvl : Nat) (st : TocState) :
    stTotal E (collapseWhile lvl st) = stTotal E st := by
  unfold collapseWhile
  have hsplit := List.takeWhile_append_dropWhile (fun e => decide (lvl ≤ e.1)) st.2
  rcases h : List.takeWhile (fun e => decide (lvl ≤ e.1)) st.2 with _ | ⟨q, qs⟩
  · rw [h] at hsplit
    simp only [List.nil_append] at hsplit
    simp [stTotal, h, hsplit]
  · rw [h] at hsplit
    rcases hk : List.dropWhile (fun e => decide (lvl ≤ e.1)) st.2 with _ | ⟨⟨plv, p⟩, rest⟩
    · rw [hk] at hsplit
      simp only [List.append_nil] at hsplit
      simp only [h, hk, stTotal]
      rw [← hsplit]
      simp [spineOf, foldl_attach E hadd, List.append_assoc]
    · rw [hk] at hsplit
      simp only [h, hk, stTotal]
      rw [← hsplit, spineOf_append]
      simp [spineOf, foldl_attach E hadd, hadd, List.append_assoc]

theorem apply_total (E : TocEntry → List α)
    (hadd : ∀ p n, E (addChild p n) = E p ++ E n) (g : TocEvent → List α)
    (hentry : ∀ lv t p raw, E (mkEntryNode lv t p raw) = g (.entry lv t p raw))
    (hpart : ∀ t r, E (mkPartNode t r) = g (.part t r)) (st : TocState) (e : TocEvent) :
    stTotal E (applyEvent st e) = stTotal E st ++ g e := by
  cases e with
  | part t r =>
    have hsp := collapseWhile_zero_spine st
    have hc := collapse_total E hadd 0 st
    show stTotal E ((collapseWhile 0 st).1 ++ [mkPartNode t r], []) = _
    unfold stTotal at hc ⊢
    rw [hsp] at hc
    simp only [spineOf, List.append_nil] at hc ⊢
    rw [List.flatMap_append, hc]
    simp [hpart]
  | entry lvl t p raw =>
    have hc := collapse_total E hadd lvl st
    show stTotal E ((collapseWhile lvl st).1,
        (lvl, mkEntryNode lvl t p raw) :: (collapseWhile lvl st).2) = _
    unfold stTotal at hc ⊢
    rw [← hc]
    simp [spineOf, hentry, List.append_assoc]

theorem stTotal_foldl (E : TocEntry → List α)
    (hadd : ∀ p n, E (addChild p n) = E p ++ E n) (g : TocEvent → List α)
    (hentry : ∀ lv t p raw, E (mkEntryNode lv t p raw) = g (.entry lv t p raw))
    (hpart : ∀ t r, E (mkPartNode t r) = g (.part t r)) :
    ∀ (evs : List TocEvent) (st : TocState),
      stTotal E (evs.foldl applyEvent st) = stTotal E st ++ evs.flatMap g := by
  intro evs
  induction evs with
  | nil => intro st; simp
  | cons e evs ih =>
    intro st
    rw [List.foldl_cons, ih, apply_total E hadd g hentry hpart]
    simp [List.append_assoc]

/-- Any pre-order flattening of the built forest is the event-wise flattening
of the event list. -/
theorem build_hom (E : TocEntry → List α)
    (hadd : ∀ p n, E (addChild p n) = E p ++ E n) (g : TocEvent → List α)
    (hentry : ∀ lv t p raw, E (mkEntryNode lv t p raw) = g (.entry lv t p raw))
    (hpart : ∀ t r, E (mkPartNode t r) = g (.part t r)) (evs : List TocEvent) :
    (build evs).flatMap E = evs.flatMap g := by
  unfold build
  have h1 := stTotal_foldl E hadd g hentry hpart evs ([], [])
  have h2 := collapse_total E hadd 0 (evs.foldl applyEvent ([], []))
  have h3 := collapseWhile_zero_spine (evs.foldl applyEvent ([], []))
  have h4 : stTotal E (collapseWhile 0 (evs.foldl applyEvent ([], []))) =
      (collapseWhile 0 (evs.foldl applyEvent ([], []))).1.flatMap E := by
    unfold stTotal
    rw [h3]
    simp [spineOf]
  rw [← h4, h2, h1]
  simp [stTotal, spineOf]

theorem forestEvents_flatMap (l : List TocEntry) :
    forestEvents l = l.flatMap entryEvents := by
  induction l with
  | nil => rfl
  | cons e es ih => rw [forestEvents, ih]; simp

theorem forestLines_flatMap (l : List TocEntry) :
    forestLines l = l.flatMap entryLines := by
  induction l with
  | nil => rfl
  | cons e es ih => rw [forestLines, ih]; simp

theorem forestPaths_flatMap (l : List TocEntry) :
    forestPaths l = l.flatMap entryPaths := by
  induction l with
  | nil => rfl
  | cons e es ih => rw [forestPaths, ih]; simp

theorem entryEvents_addChild (p n : TocEntry) :
    entryEvents (addChild p n) = entryEvents p ++ entryEvents n := by
  cases p with
  | mk t pa lv ch ip raw =>
    rw [addChild, entryEvents, entryEvents]
    rw [forestEvents_flatMap, forestEvents_flatMap]
    simp

theorem entryLines_mk (t : Str) (pa : Option Str) (lv : Nat) (ch : List TocEntry)
    (ip : Bool) (raw : Str) :
    entryLines (.mk t pa lv ch ip raw) =
      (if ip then '\n' :: (raw ++ ['\n'])
       else
         List.replicate (2 * lv) ' ' ++
           (match pa with
            | some q =>
              if q = [] then '-' :: ' ' :: t
              else '-' :: ' ' :: '[' :: (t ++ ']' :: '(' :: q ++ [')'])
            | none => '-' :: ' ' :: t)) :: forestLines ch := by
  simp only [entryLines.eq_def]

theorem entryPaths_mk (t : Str) (pa : Option Str) (lv : Nat) (ch : List TocEntry)
    (ip : Bool) (raw : Str) :
    entryPaths (.mk t pa lv ch ip raw) =
      (match pa with
       | some q => if q = [] then [] else [q]
       | none => []) ++ forestPaths ch := by
  simp only [entryPaths.eq_def]

theorem entryLines_addChild (p n : TocEntry) :
    entryLines (addChild p n) = entryLines p ++ entryLines n := by
  cases p with
  | mk t pa lv ch ip raw =>
    have h1 : forestLines (ch ++ [n]) = forestLines ch ++ entryLines n := by
      rw [forestLines_flatMap (ch ++ [n]), forestLines_flatMap ch, List.flatMap_append]
      simp
    rw [addChild, entryLines_mk, entryLines_mk, h1]
    simp

theorem entryPaths_addChild (p n : TocEntry) :
    entryPaths (addChild p n) = entryPaths p ++ entryPaths n := by
  cases p with
  | mk t pa lv ch ip raw =>
    have h1 : forestPaths (ch ++ [n]) = forestPaths ch ++ entryPaths n := by
      rw [forestPaths_flatMap (ch ++ [n]), forestPaths_flatMap ch, List.flatMap_append]
      simp
    rw [addChild, entryPaths_mk, entryPaths_mk, h1]
    simp

theorem flatMap_singleton_eq (evs : List TocEvent) :
    evs.flatMap (fun e => [e]) = evs := by
  induction evs with
  | nil => rfl
  | cons e evs ih => simp [ih]

theorem flatMap_singleton_map (f : TocEvent → Str) (evs : List TocEvent) :
    evs.flatMap (fun e => [f e]) = evs.map f := by
  induction evs with
  | nil => rfl
  | cons e evs ih => simp [ih]

/-- The pre-order event sequence of the built forest is the original event
list: the builder loses no information and preserves order. -/
theorem forestEvents_build (evs : List TocEvent) : forestEvents (build evs) = evs := by
  rw [forestEvents_flatMap]
  rw [build_hom entryEvents entryEvents_addChild (fun e => [e])
    (fun lv t p raw => rfl) (fun t r => rfl) evs]
  exact flatMap_singleton_eq evs

/-- The serialized line elements of the built forest are the rendered lines
of the events, in order. -/
theorem forestLines_build (evs : List TocEvent) :
    forestLines (build evs) = evs.map eventLine := by
  rw [forestLines_flatMap]
  rw [build_hom entryLines entryLines_addChild (fun e => [eventLine e])
    (fun lv t p raw => by
      cases p <;> simp [mkEntryNode, entryLines_mk, forestLines, eventLine])
    (fun t r => by simp [mkPartNode, entryLines_mk, forestLines, eventLine]) evs]
  exact flatMap_singleton_map eventLine evs

/-- The collected truthy paths of the built forest are the events' paths. -/
theorem forestPaths_build (evs : List TocEvent) :
    forestPaths (build evs) = evs.flatMap eventPath := by
  rw [forestPaths_flatMap]
  exact build_hom entryPaths entryPaths_addChild eventPath
    (fun lv t p raw => by
      cases p <;> simp [mkEntryNode, entryPaths_mk, forestPaths, eventPath])
    (fun t r => by simp [mkPartNode, entryPaths_mk, forestPaths, eventPath]) evs

theorem eraseEntry_mk (t : Str) (p : Option Str) (lv : Nat) (ch : List TocEntry)
    (ip : Bool) (raw : Str) :
    eraseEntry (.mk t p lv ch ip raw) =
      .mk t p lv (eraseForest ch) ip (if ip then raw else []) := by
  simp only [eraseEntry.eq_def]

theorem eraseForest_append (u v : List TocEntry) :
    eraseForest (u ++ v) = eraseForest u ++ eraseForest v := by
  induction u with
  | nil => rfl
  | cons e u ih => rw [List.cons_append, eraseForest, eraseForest, ih, List.cons_append]

theorem eraseEntry_addChild (p n : TocEntry) :
    eraseEntry (addChild p n) = addChild (eraseEntry p) (eraseEntry n) := by
  cases p with
  | mk t pa lv ch ip raw =>
    rw [addChild, eraseEntry_mk, eraseEntry_mk, eraseForest_append, addChild]
    rw [eraseForest]
    rw [eraseForest]

theorem erase_foldl_attach :
    ∀ (qs : List (Nat × TocEntry)) (q : Nat × TocEntry),
      (qs.map (fun e => (e.1, eraseEntry e.2))).foldl
          (fun acc e => (e.1, addChild e.2 acc.2)) (q.1, eraseEntry q.2) =
        ((qs.foldl (fun acc e => (e.1, addChild e.2 acc.2)) q).1,
          eraseEntry (qs.foldl (fun acc e => (e.1, addChild e.2 acc.2)) q).2) := by
  intro qs
  induction qs with
  | nil => intro q; rfl
  | cons e qs ih =>
    intro q
    rw [List.map_cons, List.foldl_cons, List.foldl_cons]
    have h1 : ((e.1, eraseEntry e.2).1, addChild (e.1, eraseEntry e.2).2 (q.1, eraseEntry q.2).2) =
        ((e.1, addChild e.2 q.2).1, eraseEntry (e.1, addChild e.2 q.2).2) := by
      simp [eraseEntry_addChild]
    rw [h1]
    exact ih (e.1, addChild e.2 q.2)

theorem collapse_erase (lvl : Nat) (st : TocState) :
    collapseWhile lvl (eraseSt st) = eraseSt (collapseWhile lvl st) := by
  obtain ⟨d, sp⟩ := st
  simp only [collapseWhile, eraseSt]
  have hmap : ∀ l : List (Nat × TocEntry),
      List.takeWhile (fun e => decide (lvl ≤ e.1))
          (l.map (fun e => (e.1, eraseEntry e.2))) =
        (List.takeWhile (fun e => decide (lvl ≤ e.1)) l).map
          (fun e => (e.1, eraseEntry e.2)) := by
    intro l
    rw [List.takeWhile_map]
    rfl
  have hmapd : ∀ l : List (Nat × TocEntry),
      List.dropWhile (fun e => decide (lvl ≤ e.1))
          (l.map (fun e => (e.1, eraseEntry e.2))) =
        (List.dropWhile (fun e => decide (lvl ≤ e.1)) l).map
          (fun e => (e.1, eraseEntry e.2)) := by
    intro l
    rw [List.dropWhile_map]
    rfl
  rw [hmap, hmapd]
  rcases h : List.takeWhile (fun e => decide (lvl ≤ e.1)) sp with _ | ⟨q, qs⟩ <;> rw [h]
  · rfl
  · simp only [List.map_cons]
    rcases hk : List.dropWhile (fun e => decide (lvl ≤ e.1)) sp with _ | ⟨⟨plv, p⟩, rest⟩ <;>
      rw [hk]
    · simp only [List.map_nil]
      rw [erase_foldl_attach qs q]
      simp [eraseForest_append, eraseForest]
    · simp only [List.map_cons]
      rw [erase_foldl_attach qs q]
      simp [eraseEntry_addChild]

theorem apply_erase (st : TocState) (e : TocEvent) :
    applyEvent (eraseSt st) (eraseEv e) = eraseSt (applyEvent st e) := by
  cases e with
  | part t r =>
    show ((collapseWhile 0 (eraseSt st)).1 ++ [mkPartNode t r], []) = _
    rw [collapse_erase]
    have h2 : eraseEntry (mkPartNode t r) = mkPartNode t r := by
      rw [mkPartNode, eraseEntry_mk]
      rfl
    simp [applyEvent, eraseSt, eraseForest_append, eraseForest, h2]
  | entry lvl t p raw =>
    show ((collapseWhile lvl (eraseSt st)).1,
        (lvl, mkEntryNode lvl t p []) :: (collapseWhile lvl (eraseSt st)).2) = _
    rw [collapse_erase]
    have h2 : eraseEntry (mkEntryNode lvl t p raw) = mkEntryNode lvl t p [] := by
      rw [mkEntryNode, eraseEntry_mk]
      rfl
    simp [applyEvent, eraseSt, h2]

theorem foldl_erase (evs : List TocEvent) :
    ∀ st : TocState,
      (evs.map eraseEv).foldl applyEvent (eraseSt st) =
        eraseSt (evs.foldl applyEvent st) := by
  induction evs with
  | nil => intro st; rfl
  | cons e evs ih =>
    intro st
    rw [List.map_cons, List.foldl_cons, List.foldl_cons, apply_erase]
    exact ih (applyEvent st e)

/-- Building the erased events yields the erased forest. -/
theorem build_erase (evs : List TocEvent) :
    build (evs.map eraseEv) = eraseForest (build evs) := by
  unfold build
  have h0 : (([], []) : TocState) = eraseSt ([], []) := rfl
  rw [h0, foldl_erase, collapse_erase]
  rfl

theorem splitNl_ne_nil : ∀ s : Str, splitNl s ≠ [] := by
  intro s
  cases s with
  | nil => simp [splitNl]
  | cons c cs =>
    rw [splitNl]
    by_cases hc : c = '\n'
    · simp [hc]
    · rcases h : splitNl cs with _ | ⟨l, ls⟩ <;> simp [hc]

theorem splitNl_append_nl : ∀ u v : Str, splitNl (u ++ '\n' :: v) = splitNl u ++ splitNl v := by
  intro u v
  induction u with
  | nil => simp [splitNl]
  | cons c u ih =>
    by_cases hc : c = '\n'
    · subst hc
      simp [splitNl, ih]
    · obtain ⟨l, ls, hu⟩ : ∃ l ls, splitNl u = l :: ls := by
        rcases hs : splitNl u with _ | ⟨l, ls⟩
        · exact absurd hs (splitNl_ne_nil u)
        · exact ⟨l, ls, rfl⟩
      rw [List.cons_append, splitNl, if_neg hc, ih, hu, List.cons_append, splitNl,
        if_neg hc, hu]
      rfl

theorem mem_splitNl_no_nl : ∀ (s l : Str), l ∈ splitNl s → '\n' ∉ l := by
  intro s
  induction s with
  | nil =>
    intro l hl
    simp [splitNl] at hl
    simp [hl]
  | cons c cs ih =>
    intro l hl
    rw [splitNl] at hl
    by_cases hc : c = '\n'
    · rw [if_pos hc] at hl
      rcases List.mem_cons.mp hl with rfl | h2
      · simp
      · exact ih l h2
    · rw [if_neg hc] at hl
      rcases hs : splitNl cs with _ | ⟨m, ms⟩
      · exact absurd hs (splitNl_ne_nil cs)
      · rw [hs] at hl
        rcases List.mem_cons.mp hl with rfl | h2
        · intro hmem
          rcases List.mem_cons.mp hmem with h3 | h4
          · exact hc h3.symm
          · exact ih m (hs ▸ List.mem_cons_self m ms) h4
        · exact ih l (hs ▸ List.mem_cons_of_mem m h2)

theorem splitNl_eq_single {s : Str} (h : '\n' ∉ s) : splitNl s = [s] := by
  induction s with
  | nil => rfl
  | cons c cs ih =>
    have hc : c ≠ '\n' := by
      intro hcontra
      exact h (hcontra ▸ List.mem_cons_self c cs)
    have hcs : splitNl cs = [cs] := ih (fun hm => h (List.mem_cons_of_mem c hm))
    rw [splitNl, if_neg hc, hcs]

theorem splitNl_joinNl : ∀ ls : List Str, ls ≠ [] → splitNl (joinNl ls) = ls.flatMap splitNl := by
  intro ls
  induction ls with
  | nil => intro h; cases h rfl
  | cons l ls ih =>
    intro _
    cases ls with
    | nil => simp [joinNl]
    | cons m rest =>
      have hne : m :: rest ≠ [] := List.cons_ne_nil m rest
      rw [joinNl, splitNl_append_nl, ih hne]
      · simp
      · exact hne

theorem takeWhile_replicate_append (p : Char → Bool) (a : Char) (ha : p a = true)
    (n : Nat) (l : Str) :
    (List.replicate n a ++ l).takeWhile p = List.replicate n a ++ l.takeWhile p := by
  induction n with
  | zero => simp
  | succ n ih => simp [List.replicate_succ, List.takeWhile_cons, ha, ih]

theorem dropWhile_replicate_append (p : Char → Bool) (a : Char) (ha : p a = true)
    (n : Nat) (l : Str) :
    (List.replicate n a ++ l).dropWhile p = l.dropWhile p := by
  induction n with
  | zero => simp
  | succ n ih => simp [List.replicate_succ, List.dropWhile_cons, ha, ih]

theorem trimRight_cons_neg {p : Char → Bool} {c : Char} (cs : Str) (h : p c = false) :
    trimRight p (c :: cs) = c :: trimRight p cs := by
  rw [trimRight]
  rcases hr : trimRight p cs with _ | ⟨b, bs⟩
  · simp [h]
  · rfl

theorem pyStrip_entry_render (n : Nat) (rest : Str) :
    pyStrip (List.replicate n ' ' ++ '-' :: rest) = '-' :: trimRight isPyWs rest := by
  unfold pyStrip trimBoth
  rw [dropWhile_replicate_append isPyWs ' ' (by decide)]
  rw [List.dropWhile_cons]
  simp only [show isPyWs '-' = false from by decide, Bool.false_eq_true, if_false]
  exact trimRight_cons_neg rest (by decide)

theorem partMatch_dash (r : Str) : partMatch ('-' :: r) = none := rfl

theorem takeWhile_isPyWs_dash (rest : Str) :
    List.takeWhile isPyWs ('-' :: rest) = [] := by
  simp [List.takeWhile_cons, show isPyWs '-' = false from by decide]

theorem entryLevel_render (n : Nat) (rest : Str) :
    entryLevel (List.replicate n ' ' ++ '-' :: rest) = n / 2 := by
  unfold entryLevel
  rw [takeWhile_replicate_append isPyWs ' ' (by decide), takeWhile_isPyWs_dash]
  simp

theorem classifyLine_entry_level {line : Str} {lv : Nat} {t : Str} {p : Option Str}
    {raw : Str} (h : classifyLine line = some (.entry lv t p raw)) :
    lv = (line.takeWhile isPyWs).length / 2 := by
  simp only [classifyLine] at h
  by_cases hs : pyStrip line = []
  · rw [if_pos hs] at h; cases h
  · rw [if_neg hs] at h
    rcases hp : partMatch (pyStrip line) with _ | t0
    · rcases hl : linkMatch line with _ | r
      · rcases ht : textMatch line with _ | t3
        · simp [hp, hl, ht] at h
        · simp only [hp, hl, ht] at h
          by_cases hb : '[' ∈ t3
          · rw [if_pos hb] at h; cases h
          · rw [if_neg hb] at h
            injection h with h2
            simp only [TocEvent.entry.injEq] at h2
            exact h2.1.symm
      · simp only [hp, hl] at h
        injection h with h2
        simp only [TocEvent.entry.injEq] at h2
        exact h2.1.symm
    · simp [hp] at h

/-- C6: a group-header line resets the nesting context: the stack is cleared
and the group-header node is appended at top level, so the forest built from
any line list decomposes at the group header into independent parts and no
entry parsed after it is attached below an entry parsed before it; and every
recognized list entry's indent level is its leading-whitespace count integer
divided by 2. -/
theorem claim_C6 :
    ∀ (ls1 ls2 : List Str) (gh t r line : Str) (lv : Nat) (t2 : Str) (p : Option Str)
      (raw : Str),
      (classifyLine gh = some (.part t r) →
        build ((ls1 ++ gh :: ls2).filterMap classifyLine) =
          build (ls1.filterMap classifyLine) ++
            mkPartNode t r :: build (ls2.filterMap classifyLine)) ∧
      (classifyLine line = some (.entry lv t2 p raw) →
        lv = (line.takeWhile isPyWs).length / 2) := by
  intro ls1 ls2 gh t r line lv t2 p raw
  constructor
  · intro hgh
    rw [List.filterMap_append, List.filterMap_cons, hgh, build_part_decomp]
  · exact classifyLine_entry_level

theorem claim_C6_witness :
    classifyLine c6GH = some (.part "Part I".toList c6GH) ∧
    classifyLine c6Line = some (.entry 1 "C".toList (some "c.md".toList) c6Line) ∧
    build ((c6L1 ++ c6GH :: c6L2).filterMap classifyLine) =
      build (c6L1.filterMap classifyLine) ++
        mkPartNode "Part I".toList c6GH :: build (c6L2.filterMap classifyLine) ∧
    (1 : Nat) = (c6Line.takeWhile isPyWs).length / 2 := by
  have hgh : classifyLine c6GH = some (.part "Part I".toList c6GH) := by decide
  have hline : classifyLine c6Line = some (.entry 1 "C".toList (some "c.md".toList) c6Line) := by
    decide
  exact ⟨hgh, hline,
    (claim_C6 c6L1 c6L2 c6GH "Part I".toList c6GH c6Line 1 "C".toList
      (some "c.md".toList) c6Line).1 hgh,
    (claim_C6 c6L1 c6L2 c6GH "Part I".toList c6GH c6Line 1 "C".toList
      (some "c.md".toList) c6Line).2 hline⟩

/-- C8: the separator condition of `append_to_chapter` tests
`original_content.rstrip().endswith("\n")`, which is false for every input
because `rstrip` removes trailing newlines, so the blank-line separator is
always chosen; at the failing input (a document ending in a newline, where
the claim requires a single-newline separator) the appended result contains
the blank-line separator. -/
theorem claim_C8 :
    (∀ orig : Str, appendSeparator orig = ['\n', '\n']) ∧
      appendContent c8Orig "B".toList = "A.\n\nB\n".toList := by
  constructor
  · intro orig
    unfold appendSeparator
    rcases hl : (trimRight isPyWs orig).getLast? with _ | c
    · rw [if_neg (by intro h; cases h)]
    · have hc : isPyWs c = false := getLast?_trimRight hl
      rw [if_neg (by
        intro hcontra
        have hcn : c = '\n' := by injection hcontra
        rw [hcn] at hc
        exact absurd hc (by decide))]
  · decide

theorem takeWhile_ne_append (x : Char) (t : Str) (ht : x ∉ t) (rest : Str) :
    (t ++ x :: rest).takeWhile (fun c => c ≠ x) = t := by
  induction t with
  | nil => simp [List.takeWhile_cons]
  | cons c cs ih =>
    have hcx : c ≠ x := fun h => ht (h ▸ List.mem_cons_self c cs)
    have hih := ih (fun h => ht (List.mem_cons_of_mem c h))
    rw [List.cons_append, List.takeWhile_cons, if_pos (decide_eq_true hcx), hih]

theorem linkMatch_render (n : Nat) (t p : Str)
    (ht1 : t ≠ []) (ht2 : ']' ∉ t) (hp1 : p ≠ []) (hp2 : ')' ∉ p) :
    linkMatch (List.replicate n ' ' ++ '-' :: ' ' :: '[' :: (t ++ ']' :: '(' :: p ++ [')']))
      = some (t, p) := by
  have hdw : List.dropWhile isPyWs
        (List.replicate n ' ' ++ '-' :: ' ' :: '[' :: (t ++ (']' :: ('(' :: (p ++ [')'])))))
      = '-' :: ' ' :: '[' :: (t ++ (']' :: ('(' :: (p ++ [')'])))) := by
    rw [dropWhile_replicate_append isPyWs ' ' (by decide), List.dropWhile_cons]
    rw [if_neg (by decide)]
  have hdw2 : List.dropWhile isPyWs (' ' :: '[' :: (t ++ (']' :: ('(' :: (p ++ [')'])))))
      = '[' :: (t ++ (']' :: ('(' :: (p ++ [')'])))) := by
    rw [List.dropWhile_cons, if_pos (by decide), List.dropWhile_cons, if_neg (by decide)]
  have h2 : List.takeWhile (fun c => c ≠ ']') (t ++ (']' :: ('(' :: (p ++ [')'])))) = t :=
    takeWhile_ne_append ']' t ht2 ('(' :: (p ++ [')']))
  have h3 : List.drop t.length (t ++ (']' :: ('(' :: (p ++ [')']))))
      = ']' :: ('(' :: (p ++ [')'])) :=
    List.drop_left t (']' :: ('(' :: (p ++ [')'])))
  have h4 : List.takeWhile (fun c => c ≠ ')') (p ++ [')']) = p :=
    takeWhile_ne_append ')' p hp2 []
  have h5 : List.drop p.length (p ++ [')']) = [')'] := List.drop_left p [')']
  simp only [linkMatch, List.append_assoc, List.cons_append, hdw, hdw2, h2]
  rw [if_neg ht1]
  simp only [h3, h4]
  rw [if_neg hp1]
  simp only [h5]
  simp

theorem two_mul_div_two (lv : Nat) : 2 * lv / 2 = lv :=
  Nat.mul_div_cancel_left lv (by decide)

/-- The rendered link line of an entry event with a well-formed title and path
classifies back to the same event, with the rendered line as its raw line. -/
theorem classifyLine_link_render (lv : Nat) (t p : Str)
    (ht1 : t ≠ []) (ht2 : ']' ∉ t) (hp1 : p ≠ []) (hp2 : ')' ∉ p) :
    classifyLine (List.replicate (2 * lv) ' ' ++ '-' :: ' ' :: '[' :: (t ++ ']' :: '(' :: p ++ [')']))
      = some (.entry lv t (some p)
          (List.replicate (2 * lv) ' ' ++ '-' :: ' ' :: '[' :: (t ++ ']' :: '(' :: p ++ [')']))) := by
  have hstrip := pyStrip_entry_render (2 * lv) (' ' :: '[' :: (t ++ ']' :: '(' :: p ++ [')']))
  have hlm := linkMatch_render (2 * lv) t p ht1 ht2 hp1 hp2
  have hlv := entryLevel_render (2 * lv) (' ' :: '[' :: (t ++ ']' :: '(' :: p ++ [')']))
  simp only [classifyLine, hstrip, hlm, hlv, partMatch_dash, two_mul_div_two]
  simp

theorem textMatch_render_nonws (lv : Nat) (c : Char) (cs : Str) (hc : isPyWs c = false) :
    textMatch (List.replicate (2 * lv) ' ' ++ '-' :: ' ' :: c :: cs) = some (c :: cs) := by
  have hdw : List.dropWhile isPyWs (List.replicate (2 * lv) ' ' ++ '-' :: ' ' :: c :: cs)
      = '-' :: ' ' :: c :: cs := by
    rw [dropWhile_replicate_append isPyWs ' ' (by decide), List.dropWhile_cons]
    rw [if_neg (by decide)]
  have hdw2 : List.dropWhile isPyWs (' ' :: c :: cs) = c :: cs := by
    rw [List.dropWhile_cons, if_pos (by decide), List.dropWhile_cons]
    rw [if_neg (by simp [hc])]
  simp only [textMatch, hdw, hdw2]
  simp

theorem textMatch_render_ws (lv : Nat) (c : Char) (hc : isPyWs c = true) :
    textMatch (List.replicate (2 * lv) ' ' ++ '-' :: ' ' :: [c]) = some [c] := by
  have hdw : List.dropWhile isPyWs (List.replicate (2 * lv) ' ' ++ '-' :: ' ' :: [c])
      = '-' :: ' ' :: [c] := by
    rw [dropWhile_replicate_append isPyWs ' ' (by decide), List.dropWhile_cons]
    rw [if_neg (by decide)]
  have hdw2 : List.dropWhile isPyWs (' ' :: [c]) = [] := by
    rw [List.dropWhile_cons, if_pos (by decide), List.dropWhile_cons, if_pos hc]
    rfl
  simp only [textMatch, hdw, hdw2]
  simp

theorem linkMatch_render_text_nonws (lv : Nat) (c : Char) (cs : Str)
    (hc : isPyWs c = false) (hbr : c ≠ '[') :
    linkMatch (List.replicate (2 * lv) ' ' ++ '-' :: ' ' :: c :: cs) = none := by
  have hdw : List.dropWhile isPyWs (List.replicate (2 * lv) ' ' ++ '-' :: ' ' :: c :: cs)
      = '-' :: ' ' :: c :: cs := by
    rw [dropWhile_replicate_append isPyWs ' ' (by decide), List.dropWhile_cons]
    rw [if_neg (by decide)]
  have hdw2 : List.dropWhile isPyWs (' ' :: c :: cs) = c :: cs := by
    rw [List.dropWhile_cons, if_pos (by decide), List.dropWhile_cons]
    rw [if_neg (by simp [hc])]
  simp only [linkMatch, hdw, hdw2]
  split
  · rename_i heq
    exact absurd (List.head_eq_of_cons_eq heq.symm).symm hbr
  · rfl

theorem linkMatch_render_text_ws (lv : Nat) (c : Char) (hc : isPyWs c = true) :
    linkMatch (List.replicate (2 * lv) ' ' ++ '-' :: ' ' :: [c]) = none := by
  have hdw : List.dropWhile isPyWs (List.replicate (2 * lv) ' ' ++ '-' :: ' ' :: [c])
      = '-' :: ' ' :: [c] := by
    rw [dropWhile_replicate_append isPyWs ' ' (by decide), List.dropWhile_cons]
    rw [if_neg (by decide)]
  have hdw2 : List.dropWhile isPyWs (' ' :: [c]) = [] := by
    rw [List.dropWhile_cons, if_pos (by decide), List.dropWhile_cons, if_pos hc]
    rfl
  simp only [linkMatch, hdw, hdw2]

/-- The rendered plain-text line of a pathless entry event classifies back to
the same event (with the rendered line recorded), provided the title has the
shape the text pattern can produce. -/
theorem classifyLine_text_render (lv : Nat) (t : Str) (hbr : '[' ∉ t)
    (c : Char) (cs : Str) (ht : t = c :: cs) (hsh : isPyWs c = false ∨ cs = []) :
    classifyLine (List.replicate (2 * lv) ' ' ++ '-' :: ' ' :: t)
      = some (.entry lv t none (List.replicate (2 * lv) ' ' ++ '-' :: ' ' :: t)) := by
  have hstrip := pyStrip_entry_render (2 * lv) (' ' :: t)
  have hlv := entryLevel_render (2 * lv) (' ' :: t)
  rcases Bool.eq_false_or_eq_true (isPyWs c) with hws | hws
  · have hcs : cs = [] := by
      rcases hsh with h | h
      · rw [h] at hws
        exact absurd hws (by decide)
      · exact h
    subst hcs
    have hlm : linkMatch (List.replicate (2 * lv) ' ' ++ '-' :: ' ' :: t) = none := by
      rw [ht]
      exact linkMatch_render_text_ws lv c hws
    have htm : textMatch (List.replicate (2 * lv) ' ' ++ '-' :: ' ' :: t) = some t := by
      rw [ht]
      exact textMatch_render_ws lv c hws
    simp only [classifyLine, hstrip, hlm, htm, hlv, partMatch_dash, two_mul_div_two]
    simp [hbr]
  · have hlm : linkMatch (List.replicate (2 * lv) ' ' ++ '-' :: ' ' :: t) = none := by
      rw [ht]
      exact linkMatch_render_text_nonws lv c cs hws
        (fun h => hbr (ht ▸ (h ▸ List.mem_cons_self c cs)))
    have htm : textMatch (List.replicate (2 * lv) ' ' ++ '-' :: ' ' :: t) = some t := by
      rw [ht]
      exact textMatch_render_nonws lv c cs hws
    simp only [classifyLine, hstrip, hlm, htm, hlv, partMatch_dash, two_mul_div_two]
    simp [hbr]

/-- A stripped part line that matched the part pattern classifies back to the
same part event. -/
theorem classifyLine_part (r t : Str) (h1 : pyStrip r = r) (h2 : partMatch r = some t)
    (h4 : r ≠ []) :
    classifyLine r = some (.part t r) := by
  simp only [classifyLine, h1, h2, if_neg h4]

theorem classifyLine_nil : classifyLine [] = none := rfl

theorem no_nl_link_line (n : Nat) (t p : Str) (ht : '\n' ∉ t) (hp : '\n' ∉ p) :
    '\n' ∉ (List.replicate n ' ' ++ '-' :: ' ' :: '[' :: (t ++ ']' :: '(' :: p ++ [')'])) := by
  intro h
  rcases List.mem_append.mp h with h | h
  · exact absurd (List.eq_of_mem_replicate h) (by decide)
  rcases List.mem_cons.mp h with h | h
  · exact absurd h (by decide)
  rcases List.mem_cons.mp h with h | h
  · exact absurd h (by decide)
  rcases List.mem_cons.mp h with h | h
  · exact absurd h (by decide)
  rcases List.mem_append.mp h with h | h
  · rcases List.mem_append.mp h with h | h
    · exact ht h
    rcases List.mem_cons.mp h with h | h
    · exact absurd h (by decide)
    rcases List.mem_cons.mp h with h | h
    · exact absurd h (by decide)
    · exact hp h
  · exact absurd (List.mem_singleton.mp h) (by decide)

theorem no_nl_text_line (n : Nat) (t : Str) (ht : '\n' ∉ t) :
    '\n' ∉ (List.replicate n ' ' ++ '-' :: ' ' :: t) := by
  intro h
  rcases List.mem_append.mp h with h | h
  · exact absurd (List.eq_of_mem_replicate h) (by decide)
  rcases List.mem_cons.mp h with h | h
  · exact absurd h (by decide)
  rcases List.mem_cons.mp h with h | h
  · exact absurd h (by decide)
  · exact ht h

/-- Per-event round trip: splitting the rendered line element of a
well-formed event into lines and classifying them yields exactly the event
back, with the rendered line recorded as its raw line. -/
theorem classify_eventLine {e : TocEvent} (h : wfEvent e) :
    (splitNl (eventLine e)).filterMap classifyLine = [rerawEv e] := by
  cases e with
  | part t r =>
    obtain ⟨h1, h2, h3, h4⟩ := h
    have hs : splitNl (eventLine (.part t r)) = [[], r, []] := by
      show splitNl ('\n' :: (r ++ ['\n'])) = [[], r, []]
      rw [splitNl, if_pos rfl]
      have : (r ++ ['\n'] : Str) = r ++ '\n' :: [] := rfl
      rw [this, splitNl_append_nl, splitNl_eq_single h3]
      rfl
    rw [hs]
    rw [List.filterMap_cons_none classifyLine_nil,
      List.filterMap_cons_some (classifyLine_part r t h1 h2 h4),
      List.filterMap_cons_none classifyLine_nil, List.filterMap_nil]
    rfl
  | entry lv t p raw =>
    cases p with
    | some q =>
      obtain ⟨ht1, ht2, ht3, hp1, hp2, hp3⟩ := h
      have hline : eventLine (.entry lv t (some q) raw)
          = List.replicate (2 * lv) ' ' ++ '-' :: ' ' :: '[' :: (t ++ ']' :: '(' :: q ++ [')']) := by
        simp only [eventLine, if_neg hp1]
      rw [hline, splitNl_eq_single (no_nl_link_line (2 * lv) t q ht3 hp3)]
      rw [List.filterMap_cons_some (classifyLine_link_render lv t q ht1 ht2 hp1 hp2),
        List.filterMap_nil]
      simp only [rerawEv, hline]
    | none =>
      obtain ⟨hbr, hnl, c, cs, ht, hsh⟩ := h
      have hline : eventLine (.entry lv t none raw)
          = List.replicate (2 * lv) ' ' ++ '-' :: ' ' :: t := by
        simp only [eventLine]
      rw [hline, splitNl_eq_single (no_nl_text_line (2 * lv) t hnl)]
      rw [List.filterMap_cons_some (classifyLine_text_render lv t hbr c cs ht hsh),
        List.filterMap_nil]
      simp only [rerawEv, hline]

/-- The list form of `classify_eventLine`: classifying all the lines of the
rendered elements of well-formed events gives back the events with rendered
raw lines. -/
theorem filterMap_classify_flatMap (evs : List TocEvent) (h : ∀ e ∈ evs, wfEvent e) :
    ((evs.map eventLine).flatMap splitNl).filterMap classifyLine = evs.map rerawEv := by
  induction evs with
  | nil => rfl
  | cons e es ih =>
    rw [List.map_cons, List.flatMap_cons, List.filterMap_append,
      classify_eventLine (h e (List.mem_cons_self e es)),
      ih (fun x hx => h x (List.mem_cons_of_mem e hx)), List.map_cons]
    rfl

theorem mem_pyStrip {l : Str} {c : Char} (h : c ∈ pyStrip l) : c ∈ l := by
  unfold pyStrip trimBoth at h
  exact List.Sublist.mem (mem_trimRight h) (List.dropWhile_sublist _)

theorem pyStrip_idem (l : Str) : pyStrip (pyStrip l) = pyStrip l := by
  unfold pyStrip trimBoth
  have hdrop : List.dropWhile isPyWs (trimRight isPyWs (List.dropWhile isPyWs l))
      = trimRight isPyWs (List.dropWhile isPyWs l) := by
    apply dropWhile_eq_self
    intro c hc
    exact head?_dropWhile (head?_trimRight hc)
  rw [hdrop]
  apply trimRight_eq_self
  intro c hc
  exact getLast?_trimRight hc

theorem drop_length_sub_one : ∀ (l : Str), l ≠ [] → ∃ c, l.drop (l.length - 1) = [c] := by
  intro l
  induction l with
  | nil => intro h; cases h rfl
  | cons a as ih =>
    intro _
    cases as with
    | nil => exact ⟨a, rfl⟩
    | cons b bs =>
      obtain ⟨c, hc⟩ := ih (List.cons_ne_nil b bs)
      refine ⟨c, ?_⟩
      have hlen : (a :: b :: bs : Str).length - 1 = (b :: bs : Str).length := by
        simp
      rw [hlen, List.length_cons, List.drop_succ_cons]
      rw [List.length_cons] at hc
      simpa using hc

/-- What a successful text-pattern match guarantees: the title's characters
come from the line, and the title is nonempty with a non-whitespace head
unless it is the single backtracked whitespace character. -/
theorem textMatch_inv {line t : Str} (h : textMatch line = some t) :
    (∀ c ∈ t, c ∈ line) ∧ ∃ c cs, t = c :: cs ∧ (isPyWs c = false ∨ cs = []) := by
  simp only [textMatch] at h
  split at h
  · rename_i after heq
    by_cases ha : after = []
    · rw [if_pos ha] at h
      exact Option.noConfusion h
    · rw [if_neg ha] at h
      by_cases hd : List.dropWhile isPyWs after ≠ []
      · rw [if_pos hd] at h
        injection h with h
        subst h
        constructor
        · intro c hc
          have h1 : c ∈ after := List.Sublist.mem hc (List.dropWhile_sublist _)
          have h2 : c ∈ '-' :: after := List.mem_cons_of_mem _ h1
          rw [← heq] at h2
          exact List.Sublist.mem h2 (List.dropWhile_sublist _)
        · rcases hd2 : List.dropWhile isPyWs after with _ | ⟨c, cs⟩
          · exact absurd hd2 hd
          · exact ⟨c, cs, rfl, Or.inl (head?_dropWhile (by rw [hd2]; rfl))⟩
      · rw [if_neg hd] at h
        injection h with h
        subst h
        constructor
        · intro c hc
          have h1 : c ∈ after := List.Sublist.mem hc (List.drop_sublist _ _)
          have h2 : c ∈ '-' :: after := List.mem_cons_of_mem _ h1
          rw [← heq] at h2
          exact List.Sublist.mem h2 (List.dropWhile_sublist _)
        · obtain ⟨c, hc⟩ := drop_length_sub_one after ha
          exact ⟨c, [], hc, Or.inr rfl⟩
  · exact Option.noConfusion h

/-- What a successful link-pattern match guarantees: nonempty title and path
whose characters come from the line and avoid the closing delimiters. -/
theorem linkMatch_inv {line : Str} {t p : Str} (h : linkMatch line = some (t, p)) :
    t ≠ [] ∧ (∀ c ∈ t, c ≠ ']' ∧ c ∈ line) ∧ p ≠ [] ∧ (∀ c ∈ p, c ≠ ')' ∧ c ∈ line) := by
  simp only [linkMatch] at h
  split at h
  · rename_i r1 heq1
    split at h
    · rename_i r3 heq3
      have hr3 : ∀ c, c ∈ r3 → c ∈ line := by
        intro c hc
        have h2 : c ∈ '[' :: r3 := List.mem_cons_of_mem _ hc
        rw [← heq3] at h2
        have h3 : c ∈ r1 := List.Sublist.mem h2 (List.dropWhile_sublist _)
        have h4 : c ∈ '-' :: r1 := List.mem_cons_of_mem _ h3
        rw [← heq1] at h4
        exact List.Sublist.mem h4 (List.dropWhile_sublist _)
      by_cases ht0 : List.takeWhile (fun c => c ≠ ']') r3 = []
      · rw [if_pos ht0] at h
        exact Option.noConfusion h
      · rw [if_neg ht0] at h
        split at h
        · rename_i r4 heq4
          have hr4 : ∀ c, c ∈ r4 → c ∈ line := by
            intro c hc
            have h2 : c ∈ ']' :: '(' :: r4 :=
              List.mem_cons_of_mem _ (List.mem_cons_of_mem _ hc)
            rw [← heq4] at h2
            exact hr3 c (List.Sublist.mem h2 (List.drop_sublist _ _))
          by_cases hp0 : List.takeWhile (fun c => c ≠ ')') r4 = []
          · rw [if_pos hp0] at h
            exact Option.noConfusion h
          · rw [if_neg hp0] at h
            split at h
            · rename_i r5 heq5
              by_cases hws : r5.all isPyWs
              · rw [if_pos hws] at h
                injection h with h
                injection h with h1 h2
                subst h1
                subst h2
                refine ⟨ht0, ?_, hp0, ?_⟩
                · intro c hc
                  have hne := List.mem_takeWhile_imp (p := fun c => decide (c ≠ ']')) hc
                  refine ⟨of_decide_eq_true hne, ?_⟩
                  exact hr3 c (List.Sublist.mem hc (List.takeWhile_sublist _))
                · intro c hc
                  have hne := List.mem_takeWhile_imp (p := fun c => decide (c ≠ ')')) hc
                  refine ⟨of_decide_eq_true hne, ?_⟩
                  exact hr4 c (List.Sublist.mem hc (List.takeWhile_sublist _))
              · rw [if_neg hws] at h
                exact Option.noConfusion h
            · exact Option.noConfusion h
        · exact Option.noConfusion h
    · exact Option.noConfusion h
  · exact Option.noConfusion h

/-- Every event the line classifier emits for a newline-free line is
well-formed, so it survives one render-reparse cycle. -/
theorem classifyLine_wf {line : Str} {e : TocEvent} (hnl : '\n' ∉ line)
    (h : classifyLine line = some e) : wfEvent e := by
  simp only [classifyLine] at h
  by_cases hs : pyStrip line = []
  · rw [if_pos hs] at h
    exact Option.noConfusion h
  · rw [if_neg hs] at h
    rcases hpm : partMatch (pyStrip line) with _ | t2
    · simp only [hpm] at h
      rcases hlm : linkMatch line with _ | r
      · simp only [hlm] at h
        rcases htm : textMatch line with _ | t2
        · simp only [htm] at h
          exact Option.noConfusion h
        · simp only [htm] at h
          by_cases hbr : '[' ∈ t2
          · rw [if_pos hbr] at h
            exact Option.noConfusion h
          · rw [if_neg hbr] at h
            injection h with h
            subst h
            obtain ⟨hmem, c, cs, hshape, hd⟩ := textMatch_inv htm
            exact ⟨hbr, fun hc => hnl (hmem _ hc), c, cs, hshape, hd⟩
      · simp only [hlm] at h
        injection h with h
        subst h
        obtain ⟨ht1, hmt, hp1, hmp⟩ := linkMatch_inv hlm
        refine ⟨ht1, ?_, ?_, hp1, ?_, ?_⟩
        · intro hc
          exact (hmt _ hc).1 rfl
        · intro hc
          exact hnl ((hmt _ hc).2)
        · intro hc
          exact (hmp _ hc).1 rfl
        · intro hc
          exact hnl ((hmp _ hc).2)
    · simp only [hpm] at h
      injection h with h
      subst h
      exact ⟨pyStrip_idem line, hpm, fun hc => hnl (mem_pyStrip hc), hs⟩

theorem findHeader_inv : ∀ (ls : List Str) (hd : Str) (rest : List Str),
    findHeader ls = some (hd, rest) →
    hd ∈ ls ∧ startsWithL "# ".toList hd = true ∧ ∀ l ∈ rest, l ∈ ls := by
  intro ls
  induction ls with
  | nil => intro hd rest h; exact Option.noConfusion h
  | cons l ls ih =>
    intro hd rest h
    rw [findHeader] at h
    by_cases hsw : startsWithL "# ".toList l = true
    · rw [if_pos hsw] at h
      injection h with h
      injection h with h1 h2
      subst h1
      subst h2
      exact ⟨List.mem_cons_self _ _, hsw, fun x hx => List.mem_cons_of_mem _ hx⟩
    · rw [if_neg hsw] at h
      obtain ⟨h1, h2, h3⟩ := ih hd rest h
      exact ⟨List.mem_cons_of_mem _ h1, h2, fun x hx => List.mem_cons_of_mem _ (h3 x hx)⟩

/-- Every parse result is a build over well-formed events under a newline-free
`"# "`-headed raw header whose title is the stripped remainder. -/
theorem parse_shape (T : Str) :
    ∃ hdr evs, parseSummaryStructure T =
        { title := pyStrip (hdr.drop 2), entries := build evs, rawHeader := hdr } ∧
      startsWithL "# ".toList hdr = true ∧ '\n' ∉ hdr ∧ ∀ e ∈ evs, wfEvent e := by
  rcases hfh : findHeader (splitNl T) with _ | ⟨hdr, rest⟩
  · refine ⟨"# Summary".toList, (splitNl T).filterMap classifyLine, ?_, by decide, by decide, ?_⟩
    · simp only [parseSummaryStructure, hfh]
      simp only [TocStructure.mk.injEq]
      exact ⟨by decide, trivial, trivial⟩
    · intro e he
      obtain ⟨l, hl, hcl⟩ := List.mem_filterMap.mp he
      exact classifyLine_wf (mem_splitNl_no_nl T l hl) hcl
  · obtain ⟨hmem, hsw, hsub⟩ := findHeader_inv (splitNl T) hdr rest hfh
    refine ⟨hdr, rest.filterMap classifyLine, ?_, hsw, mem_splitNl_no_nl T hdr hmem, ?_⟩
    · simp only [parseSummaryStructure, hfh]
    · intro e he
      obtain ⟨l, hl, hcl⟩ := List.mem_filterMap.mp he
      exact classifyLine_wf (mem_splitNl_no_nl T l (hsub l hl)) hcl

/-- Reparsing the serialization of a header and well-formed event list
recovers the header and the events with rendered raw lines. -/
theorem reparse_render (hdr : Str) (hsw : startsWithL "# ".toList hdr = true)
    (hnl : '\n' ∉ hdr) (evs : List TocEvent) (hwf : ∀ e ∈ evs, wfEvent e) :
    parseSummaryStructure (joinNl (hdr :: [] :: evs.map eventLine) ++ ['\n']) =
      { title := pyStrip (hdr.drop 2), entries := build (evs.map rerawEv),
        rawHeader := hdr } := by
  have hsplit : splitNl (joinNl (hdr :: [] :: evs.map eventLine) ++ ['\n'])
      = hdr :: ([] :: ((evs.map eventLine).flatMap splitNl ++ [[]])) := by
    have h1 : joinNl (hdr :: [] :: evs.map eventLine) ++ ['\n']
        = joinNl (hdr :: [] :: evs.map eventLine) ++ '\n' :: [] := rfl
    rw [h1, splitNl_append_nl, splitNl_joinNl _ (List.cons_ne_nil _ _),
      List.flatMap_cons, List.flatMap_cons, splitNl_eq_single hnl]
    simp [splitNl]
  have hfh : findHeader (hdr :: ([] :: ((evs.map eventLine).flatMap splitNl ++ [[]])))
      = some (hdr, [] :: ((evs.map eventLine).flatMap splitNl ++ [[]])) := by
    rw [findHeader, if_pos hsw]
  simp only [parseSummaryStructure, hsplit, hfh]
  simp only [TocStructure.mk.injEq]
  refine ⟨trivial, ?_, trivial⟩
  rw [List.filterMap_cons_none classifyLine_nil, List.filterMap_append,
    filterMap_classify_flatMap evs hwf]
  rw [show List.filterMap classifyLine [[]] = [] from rfl, List.append_nil]

/-- The serialize-reparse cycle on any parse result: same title and raw
header, and the same events up to re-recording the rendered raw lines. -/
theorem toMarkdown_parse (T : Str) : ∃ hdr evs,
    (∀ e ∈ evs, wfEvent e) ∧
    parseSummaryStructure T =
      { title := pyStrip (hdr.drop 2), entries := build evs, rawHeader := hdr } ∧
    parseSummaryStructure (toMarkdown (parseSummaryStructure T)) =
      { title := pyStrip (hdr.drop 2), entries := build (evs.map rerawEv),
        rawHeader := hdr } := by
  obtain ⟨hdr, evs, hS, hsw, hnl, hwf⟩ := parse_shape T
  refine ⟨hdr, evs, hwf, hS, ?_⟩
  rw [hS]
  show parseSummaryStructure
      (joinNl (hdr :: [] :: forestLines (build evs)) ++ ['\n']) = _
  rw [forestLines_build]
  exact reparse_render hdr hsw hnl evs hwf

/-- `_update_preserving_structure` in closed form: the classification lists
are filters of the discovered paths by normalized membership, and the leaves
for the added paths are appended at the end of the unchanged entry list. -/
theorem update_spec (S : TocStructure) (P : List Str) :
    updatePreservingStructure S P =
      (TocStructure.mk S.title
        (S.entries ++
          (P.filter (fun fp =>
            !decide (normalizePath fp ∈ (forestPaths S.entries).map normalizePath))).map
            leafEntry)
        S.rawHeader,
        P.filter (fun fp =>
          !decide (normalizePath fp ∈ (forestPaths S.entries).map normalizePath)),
        P.filter (fun fp =>
          decide (normalizePath fp ∈ (forestPaths S.entries).map normalizePath))) := by
  simp only [updatePreservingStructure, leafEntry]
  rw [classify_foldl]
  simp [leafEntry]

theorem forestLines_append (u v : List TocEntry) :
    forestLines (u ++ v) = forestLines u ++ forestLines v := by
  induction u with
  | nil => rfl
  | cons e u ih =>
    rw [List.cons_append, forestLines, forestLines, ih, List.append_assoc]

theorem forestPaths_append (u v : List TocEntry) :
    forestPaths (u ++ v) = forestPaths u ++ forestPaths v := by
  induction u with
  | nil => rfl
  | cons e u ih =>
    rw [List.cons_append, forestPaths, forestPaths, ih, List.append_assoc]

theorem entryLines_leaf (fp : Str) :
    entryLines (leafEntry fp) = [eventLine (leafEvent fp)] := by
  simp [leafEntry, leafEvent, entryLines_mk, forestLines, eventLine]

theorem forestLines_leaves (added : List Str) :
    forestLines (added.map leafEntry) = (added.map leafEvent).map eventLine := by
  induction added with
  | nil => rfl
  | cons fp rest ih =>
    rw [List.map_cons, forestLines, entryLines_leaf, ih, List.map_cons, List.map_cons]
    rfl

theorem eventPath_rerawEv (e : TocEvent) : eventPath (rerawEv e) = eventPath e := by
  cases e with
  | part t r => rfl
  | entry lv t p raw => cases p <;> rfl

theorem eraseEv_rerawEv (e : TocEvent) : eraseEv (rerawEv e) = eraseEv e := by
  cases e <;> rfl

theorem flatMap_eventPath_leaves (added : List Str) (h : ∀ fp ∈ added, fp ≠ []) :
    (added.map leafEvent).flatMap eventPath = added := by
  induction added with
  | nil => rfl
  | cons fp rest ih =>
    rw [List.map_cons, List.flatMap_cons]
    have hev : eventPath (leafEvent fp) = [fp] := by
      show (if fp = [] then [] else [fp]) = [fp]
      rw [if_neg (h fp (List.mem_cons_self fp rest))]
    rw [hev, ih (fun x hx => h x (List.mem_cons_of_mem fp hx))]
    rfl

theorem wf_leafEvent (fp : Str) (h1 : fp ≠ []) (h2 : ')' ∉ fp) (h3 : '\n' ∉ fp)
    (h4 : pathToTitle fp ≠ []) (h5 : ']' ∉ pathToTitle fp) (h6 : '\n' ∉ pathToTitle fp) :
    wfEvent (leafEvent fp) :=
  ⟨h4, h5, h6, h1, h2, h3⟩

/-- C5: serializing the tree produced by parsing any outline text and
re-parsing the serialized text yields the same title and raw header and a
structurally equal tree: after discarding the recorded raw line of non-part
nodes (which is not part of the structure: titles, paths, levels, part flags
and nesting are all kept by the erasure), the reparsed forest equals the
original parse's forest node for node. -/
theorem claim_C5 (T : Str) :
    (parseSummaryStructure (toMarkdown (parseSummaryStructure T))).title
        = (parseSummaryStructure T).title ∧
    (parseSummaryStructure (toMarkdown (parseSummaryStructure T))).rawHeader
        = (parseSummaryStructure T).rawHeader ∧
    eraseForest (parseSummaryStructure (toMarkdown (parseSummaryStructure T))).entries
        = eraseForest (parseSummaryStructure T).entries := by
  obtain ⟨hdr, evs, hwf, hS, hS2⟩ := toMarkdown_parse T
  rw [hS2, hS]
  refine ⟨rfl, rfl, ?_⟩
  show eraseForest (build (evs.map rerawEv)) = eraseForest (build evs)
  rw [← build_erase, ← build_erase, List.map_map]
  have h : eraseEv ∘ rerawEv = eraseEv := funext eraseEv_rerawEv
  rw [h]

/-- C7 (amended): when every discovered path is already present (normalized)
in the parsed outline, the merge adds nothing and writes back exactly the
parse-then-serialize rendering of the outline; the original bytes are
preserved exactly when the outline is already in serialized form (the cycle
normalizes blank-line placement, indentation and entry spacing otherwise). -/
theorem claim_C7 (T : Str) (P : List Str)
    (hP : ∀ fp ∈ P, normalizePath fp ∈
      (forestPaths (parseSummaryStructure T).entries).map normalizePath) :
    (updatePreservingStructure (parseSummaryStructure T) P).2.1 = [] ∧
    toMarkdown (updatePreservingStructure (parseSummaryStructure T) P).1
      = toMarkdown (parseSummaryStructure T) ∧
    (toMarkdown (parseSummaryStructure T) = T →
      toMarkdown (updatePreservingStructure (parseSummaryStructure T) P).1 = T) := by
  have hfil : P.filter (fun fp =>
      !decide (normalizePath fp ∈
        (forestPaths (parseSummaryStructure T).entries).map normalizePath)) = [] := by
    apply List.filter_eq_nil_iff.mpr
    intro fp hfp
    simp [hP fp hfp]
  have hW : toMarkdown (updatePreservingStructure (parseSummaryStructure T) P).1
      = toMarkdown (parseSummaryStructure T) := by
    rw [update_spec]
    show toMarkdown (TocStructure.mk (parseSummaryStructure T).title
      ((parseSummaryStructure T).entries ++
        (P.filter (fun fp =>
          !decide (normalizePath fp ∈
            (forestPaths (parseSummaryStructure T).entries).map normalizePath))).map
          leafEntry)
      (parseSummaryStructure T).rawHeader) = _
    rw [hfil, List.map_nil, List.append_nil]
  have hA : (updatePreservingStructure (parseSummaryStructure T) P).2.1 = [] := by
    rw [update_spec]
    exact hfil
  exact ⟨hA, hW, fun hT => hW.trans hT⟩

theorem claim_C7_counterexample :
    (∀ fp ∈ ["a.md".toList], normalizePath fp ∈
      (forestPaths (parseSummaryStructure c7cT).entries).map normalizePath) ∧
    (updatePreservingStructure (parseSummaryStructure c7cT) ["a.md".toList]).2.1 = [] ∧
    toMarkdown (updatePreservingStructure (parseSummaryStructure c7cT) ["a.md".toList]).1
      ≠ c7cT := by
  decide

theorem claim_C7_witness :
    (updatePreservingStructure (parseSummaryStructure c7wT) ["a.md".toList]).2.1 = [] ∧
    toMarkdown (updatePreservingStructure (parseSummaryStructure c7wT) ["a.md".toList]).1
      = toMarkdown (parseSummaryStructure c7wT) ∧
    (toMarkdown (parseSummaryStructure c7wT) = c7wT →
      toMarkdown (updatePreservingStructure (parseSummaryStructure c7wT)
        ["a.md".toList]).1 = c7wT) :=
  claim_C7 c7wT ["a.md".toList] (by decide)

theorem flatMap_eventPath_rerawEv (l : List TocEvent) :
    (l.map rerawEv).flatMap eventPath = l.flatMap eventPath := by
  induction l with
  | nil => rfl
  | cons e l ih =>
    rw [List.map_cons, List.flatMap_cons, List.flatMap_cons, eventPath_rerawEv, ih]

/-- C4 (amended): merging, serializing, re-parsing and merging again with the
same discovered paths adds nothing the second time, provided every discovered
path and its generated title survive the link rendering (nonempty, free of
the closing delimiters `)` and `]` respectively, and newline-free); paths
that violate this (for example a path containing `)`) are corrupted by the
render-reparse cycle and are re-added. -/
theorem claim_C4 (T : Str) (P : List Str)
    (hP : ∀ fp ∈ P, fp ≠ [] ∧ ')' ∉ fp ∧ '\n' ∉ fp ∧
      pathToTitle fp ≠ [] ∧ ']' ∉ pathToTitle fp ∧ '\n' ∉ pathToTitle fp) :
    (updatePreservingStructure
      (parseSummaryStructure
        (toMarkdown (updatePreservingStructure (parseSummaryStructure T) P).1)) P).2.1
      = [] := by
  obtain ⟨hdr, evs, hS, hsw, hnl, hwf⟩ := parse_shape T
  set A := P.filter (fun fp =>
    !decide (normalizePath fp ∈ (forestPaths (build evs)).map normalizePath)) with hAdef
  have hAP : ∀ fp ∈ A, fp ∈ P := fun fp hfp => (List.mem_filter.mp hfp).1
  have hstep1 : (updatePreservingStructure (parseSummaryStructure T) P).1 =
      TocStructure.mk (pyStrip (hdr.drop 2)) (build evs ++ A.map leafEntry) hdr := by
    rw [hS, update_spec]
  have hwf2 : ∀ e ∈ evs ++ A.map leafEvent, wfEvent e := by
    intro e he
    rcases List.mem_append.mp he with h | h
    · exact hwf e h
    · obtain ⟨fp, hfp, rfl⟩ := List.mem_map.mp h
      obtain ⟨h1, h2, h3, h4, h5, h6⟩ := hP fp (hAP fp hfp)
      exact wf_leafEvent fp h1 h2 h3 h4 h5 h6
  have hW : toMarkdown (updatePreservingStructure (parseSummaryStructure T) P).1
      = joinNl (hdr :: [] :: (evs ++ A.map leafEvent).map eventLine) ++ ['\n'] := by
    rw [hstep1]
    show joinNl (hdr :: [] :: forestLines (build evs ++ A.map leafEntry)) ++ ['\n'] = _
    rw [forestLines_append, forestLines_build, forestLines_leaves, ← List.map_append]
  have hparseW : parseSummaryStructure
      (toMarkdown (updatePreservingStructure (parseSummaryStructure T) P).1)
      = TocStructure.mk (pyStrip (hdr.drop 2))
          (build ((evs ++ A.map leafEvent).map rerawEv)) hdr := by
    rw [hW]
    exact reparse_render hdr hsw hnl _ hwf2
  have hpaths : forestPaths (build ((evs ++ A.map leafEvent).map rerawEv))
      = forestPaths (build evs) ++ A := by
    rw [forestPaths_build, flatMap_eventPath_rerawEv, List.flatMap_append,
      ← forestPaths_build, flatMap_eventPath_leaves]
    intro fp hfp
    exact (hP fp (hAP fp hfp)).1
  rw [hparseW, update_spec]
  show P.filter (fun fp =>
      !decide (normalizePath fp ∈
        (forestPaths (build ((evs ++ A.map leafEvent).map rerawEv))).map normalizePath))
    = []
  simp only [hpaths]
  apply List.filter_eq_nil_iff.mpr
  intro fp hfp
  by_cases hm : normalizePath fp ∈ (forestPaths (build evs)).map normalizePath
  · simp [List.map_append, hm]
  · have hfA : fp ∈ A := by
      rw [hAdef]
      exact List.mem_filter.mpr ⟨hfp, by simp [hm]⟩
    have hmem : normalizePath fp ∈ A.map normalizePath := List.mem_map_of_mem _ hfA
    simp [List.map_append, hmem]

theorem claim_C4_counterexample :
    (updatePreservingStructure
      (parseSummaryStructure
        (toMarkdown (updatePreservingStructure (parseSummaryStructure c4cT)
          ["a).md".toList]).1)) ["a).md".toList]).2.1 = ["a).md".toList] := by
  decide

theorem claim_C4_witness :
    (updatePreservingStructure
      (parseSummaryStructure
        (toMarkdown (updatePreservingStructure (parseSummaryStructure c4wT) c4wP).1))
      c4wP).2.1 = [] :=
  claim_C4 c4wT c4wP (by decide)

end WriterReader
